import Mathlib

set_option maxHeartbeats 1000000

/-!
Shallow embedding of `src/cluster.py` (hiveary-logs).

Modelling conventions, fixed once for the whole development:
* a Python string is a `List Char`; `str.split()` (whitespace-run splitting,
  which makes the preceding `.strip()` a no-op) is `splitWS`;
* a Python dict is an insertion-ordered association list with
  insert-or-replace update (`lookupA` / `insertA`); CPython key-enumeration
  order is observable only through it;
* a Python set is a duplicate-free list (`addNew` / `distincts` add an
  element only when absent), and `for x in s:` over a set of token positions
  enumerates ascending numeric order (`List.range ... |>.filter`), the
  deterministic order CPython 2 uses for small-integer sets and the order the
  spec mandates;
* Python floats produced by this program (`cluster.size` and the stored
  `total_lines`, always exact small integers, and their quotients) are `ℚ`;
* code paths that raise (`IndexError`, `AttributeError`, `TypeError`) are
  modelled with `Except Unit`.
-/

abbrev Str := List Char
abbrev Tok := List Char
abbrev Line := List Tok

/-- Whitespace test used by Python `str.split()` (the characters that occur in
this code base's inputs). -/
def isWS (c : Char) : Bool := c == ' ' || c == '\t' || c == '\n' || c == '\r'

/-- A token produced by whitespace splitting: non-empty and free of
whitespace characters. -/
def GoodTok (t : Tok) : Prop := t ≠ [] ∧ ∀ c ∈ t, isWS c = false

instance (t : Tok) : Decidable (GoodTok t) := by
  unfold GoodTok; infer_instance

/-- Accumulator worker for `splitWS`; `acc` holds the current word reversed. -/
def splitWSAux : List Char → List Char → List Tok
  | [], acc => if acc = [] then [] else [acc.reverse]
  | c :: cs, acc =>
    if isWS c then
      (if acc = [] then splitWSAux cs [] else acc.reverse :: splitWSAux cs [])
    else splitWSAux cs (c :: acc)

/-- Python `line.strip().split()`: split on whitespace runs, dropping empty
chunks (stripping first does not change the result of a whitespace split). -/
def splitWS (s : Str) : List Tok := splitWSAux s []

/-- Space-joining of a token list, as built by the `event += token` /
`event += ' ' + token` loops in `create_final_cluster` and
`find_event_in_tree` (and by `' '.join`). -/
def joinSp : List Tok → Str
  | [] => []
  | [t] => t
  | t :: t' :: ts => t ++ ' ' :: joinSp (t' :: ts)

/-- Rational division, written with `Rat.divInt` so that concrete kernel
evaluation is possible; `ratDiv_eq_div` below proves it is division on `ℚ`
(including the `x / 0 = 0` convention). -/
def ratDiv (a b : ℚ) : ℚ := Rat.divInt (a.num * b.den) (a.den * b.num)

/-- Rational addition, written with `Rat.divInt` so that concrete kernel
evaluation is possible; `ratAdd_eq_add` below proves it is addition on `ℚ`. -/
def ratAdd (a b : ℚ) : ℚ := Rat.divInt (a.num * b.den + b.num * a.den) (a.den * b.den)

/-- `VAR_TOKEN = "*HVRY%"`. -/
def VAR_TOKEN : Tok := "*HVRY%".data

/-- Python `set.add` semantics on a duplicate-free list. -/
def addNew {α : Type} [DecidableEq α] (acc : List α) (a : α) : List α :=
  if a ∈ acc then acc else acc ++ [a]

/-- The set of distinct values of a list, in first-occurrence order. -/
def distincts {α : Type} [DecidableEq α] (l : List α) : List α :=
  l.foldl addNew []

/-- Python `d.get(key)` on an association list. -/
def lookupA {α β : Type} [DecidableEq α] : List (α × β) → α → Option β
  | [], _ => none
  | (k, v) :: rest, key => if k = key then some v else lookupA rest key

/-- Python `d[key] = val` on an association list: replace in place, or append. -/
def insertA {α β : Type} [DecidableEq α] : List (α × β) → α → β → List (α × β)
  | [], key, val => [(key, val)]
  | (k, v) :: rest, key, val =>
    if k = key then (key, val) :: rest else (k, v) :: insertA rest key val

/-- One step of `collections.defaultdict(list)` grouping: append `b` to the
group of `key`, creating the group at the end if absent. -/
def groupUpd {α β : Type} [DecidableEq α] (key : α) (b : β) :
    List (α × List β) → List (α × List β)
  | [] => [(key, [b])]
  | (k, bs) :: rest =>
    if k = key then (k, bs ++ [b]) :: rest else (k, bs) :: groupUpd key b rest

/-- Group a list by a key function, first-occurrence key order, preserving the
relative order inside each group (`defaultdict(list)` filled by a loop). -/
def groupPairs {α β : Type} [DecidableEq α] (f : β → α) (bs : List β) :
    List (α × List β) :=
  bs.foldl (fun acc b => groupUpd (f b) b acc) []

/-- The `Cluster` class: lines as token lists, the set of clustered (fixed)
token positions, and the token count. -/
structure Cluster where
  lines : List Line
  indexes : List ℕ
  length : ℕ
deriving DecidableEq

/-- `self.size = float(len(lines))`; `lines` is never mutated after
construction, so the stored float always equals the current length. -/
def Cluster.size (c : Cluster) : ℚ := (c.lines.length : ℚ)

/-- `Cluster.__init__`: `indexes = indexes or set()`,
`length = length or len(lines[0])` (`or` also falls through when the given
length is the falsy `0`, in which case `len(lines[0])` is `0` as well). -/
def mkCluster (lines : List Line) (indexes : List ℕ) (length : Option ℕ) :
    Cluster :=
  { lines := lines
    indexes := indexes
    length :=
      match length with
      | some L => if L = 0 then (lines.headD []).length else L
      | none => (lines.headD []).length }

/-- `create_cardinality_map`: token position ↦ set of tokens appearing there
(positions are only ever queried below the cluster length, where every line
has an entry). -/
def create_cardinality_map (cluster : Cluster) : ℕ → List Tok :=
  fun position => distincts (cluster.lines.map (fun l => l.getD position []))

/-- Loop body of `find_cluster_position`; the state is
`(min_cardinality, candidate_position, indexes)`. -/
def fcpStep (cm : ℕ → List Tok) (size threshold : ℚ)
    (st : Option ℕ × Option ℕ × List ℕ) (position : ℕ) :
    Option ℕ × Option ℕ × List ℕ :=
  let unique_tokens := cm position
  if VAR_TOKEN ∈ unique_tokens then st
  else
    let cardinality := unique_tokens.length
    if cardinality = 1 then (st.1, st.2.1, addNew st.2.2 position)
    else
      let update :=
        match st.1 with
        | none => true
        | some m => decide (m > cardinality)
      if update then
        if ratDiv (cardinality : ℚ) size < threshold then
          (some cardinality, some position, st.2.2)
        else st
      else st

/-- `find_cluster_position`: returns the chosen split position (if any)
together with the cluster whose `indexes` set was mutated during the scan. -/
def find_cluster_position (cluster : Cluster) (threshold : ℚ) :
    Option ℕ × Cluster :=
  if cluster.size = 1 then
    (none, { cluster with indexes := List.range cluster.length })
  else
    let cm := create_cardinality_map cluster
    let candidates := (List.range cluster.length).filter (fun p => p ∉ cluster.indexes)
    let st := candidates.foldl (fcpStep cm cluster.size threshold)
      (none, none, cluster.indexes)
    (st.2.1, { cluster with indexes := st.2.2 })

/-- `create_new_clusters`: partition the lines by the token at the split
position; each child gets `{candidate_position} ∪ indexes` and recomputes its
length from its first line. -/
def create_new_clusters (cluster : Cluster) (candidate_position : ℕ) :
    List Cluster :=
  let new_cluster := groupPairs (fun l => l.getD candidate_position []) cluster.lines
  let indexes := addNew cluster.indexes candidate_position
  new_cluster.map (fun g => mkCluster g.2 indexes none)

/-- The nested-dict variable tree: value ↦ (`count`, `children`). -/
inductive VarTree where
  | node : List (Tok × ℕ × VarTree) → VarTree

/-- Entries of a variable-tree node. -/
def VarTree.entries : VarTree → List (Tok × ℕ × VarTree)
  | node es => es

/-- One line's walk in `create_final_cluster`: along the path of its variable
values, increment `count` at each node, creating nodes lazily. -/
def insertPath : VarTree → List Tok → VarTree
  | t, [] => t
  | VarTree.node es, v :: vs =>
    match lookupA es v with
    | some (cnt, children) => VarTree.node (insertA es v (cnt + 1, insertPath children vs))
    | none => VarTree.node (insertA es v (1, insertPath (VarTree.node []) vs))

/-- The `event_data` dict of a final cluster. -/
structure EventData where
  vars : VarTree
  total_lines : ℚ
  line_len : ℕ

/-- The returned catalog: event identity string ↦ event data. -/
abbrev Catalog := List (Str × EventData)

/-- `create_final_cluster`: event string with `VAR_TOKEN` at the non-fixed
positions (verbatim first line when `indexes` is empty), plus the variable
tree over the variable positions in ascending order. -/
def create_final_cluster (cluster : Cluster) : Str × EventData :=
  let example_line := cluster.lines.headD []
  if cluster.indexes = [] then
    (joinSp example_line,
      { vars := VarTree.node [], total_lines := cluster.size, line_len := cluster.length })
  else
    let var_positions := (List.range cluster.length).filter (fun p => p ∉ cluster.indexes)
    let eventToks := (List.range cluster.length).map (fun position =>
      if position ∈ var_positions then VAR_TOKEN else example_line.getD position [])
    let var_tree := cluster.lines.foldl (fun t line =>
      insertPath t (var_positions.map (fun p => line.getD p []))) (VarTree.node [])
    (joinSp eventToks,
      { vars := var_tree, total_lines := cluster.size, line_len := cluster.length })

/-- Body of the `for cluster in cluster_candidates:` loop in `cluster_lines`:
split the cluster or finalize it into the catalog. -/
def processOne (threshold : ℚ) (st : List Cluster × Catalog) (cluster : Cluster) :
    List Cluster × Catalog :=
  let r := find_cluster_position cluster threshold
  match r.1 with
  | some p => (st.1 ++ create_new_clusters r.2 p, st.2)
  | none =>
    let ed := create_final_cluster r.2
    (st.1, insertA st.2 ed.1 ed.2)

/-- One round of the `while cluster_candidates:` loop. -/
def runRound (threshold : ℚ) (cands : List Cluster) (final : Catalog) :
    List Cluster × Catalog :=
  cands.foldl (processOne threshold) ([], final)

/-- The `while cluster_candidates:` loop, with explicit fuel; the fuel chosen
in `cluster_lines` exceeds the maximal possible number of rounds, so the
fuel-exhaustion branch is never taken. -/
def runClustering (threshold : ℚ) : ℕ → List Cluster → Catalog → Catalog
  | _, [], final => final
  | 0, _ :: _, final => final
  | fuel + 1, c :: cs, final =>
    let r := runRound threshold (c :: cs) final
    runClustering threshold fuel r.1 r.2

/-- `cluster_lines_by_len`: drop falsy (empty-string) lines, tokenize, group
by token count, and append the previously discovered lines of each present
length (`prev_clusters` empty models both `None` and `{}`). -/
def cluster_lines_by_len (lines : List Str) (prev_clusters : List (ℕ × List Line)) :
    List Cluster :=
  let tokenized := (lines.filter (· ≠ [])).map splitWS
  let lines_by_len := groupPairs (fun l => l.length) tokenized
  lines_by_len.map (fun g =>
    mkCluster (g.2 ++ (lookupA prev_clusters g.1).getD []) [] (some g.1))

/-- `cluster_lines`: the main clustering entry point. -/
def cluster_lines (lines : List Str) (prev_clusters : List (ℕ × List Line))
    (threshold : ℚ) : Catalog :=
  let cluster_candidates := cluster_lines_by_len lines prev_clusters
  let fuel := (cluster_candidates.map (fun c => c.length)).foldr max 0 + 2
  runClustering threshold fuel cluster_candidates []

/-- The event-matching trie below the length bucket. -/
inductive TokTree where
  | node : List (Tok × TokTree) → TokTree

/-- Entries of a trie node. -/
def TokTree.entries : TokTree → List (Tok × TokTree)
  | node es => es

/-- Insert one event's token path into a trie, sharing existing prefixes. -/
def insertToks : TokTree → List Tok → TokTree
  | t, [] => t
  | TokTree.node es, tok :: toks =>
    match lookupA es tok with
    | some br => TokTree.node (insertA es tok (insertToks br toks))
    | none => TokTree.node (insertA es tok (insertToks (TokTree.node []) toks))

/-- `clusters_to_tree`: top level keyed by line length, then by tokens. -/
def clusters_to_tree (clusters : Catalog) : List (ℕ × TokTree) :=
  clusters.foldl (fun tree ed =>
    let branch := (lookupA tree ed.2.line_len).getD (TokTree.node [])
    insertA tree ed.2.line_len (insertToks branch (splitWS ed.1))) []

/-- Token-by-token walk of `find_event_in_tree`: prefer the literal child,
fall back to the `VAR_TOKEN` child, fail if neither exists. Returns the
token path of the matched event. -/
def findWalk : TokTree → List Tok → Option (List Tok)
  | _, [] => some []
  | TokTree.node es, token :: rest =>
    match lookupA es token with
    | some br => (findWalk br rest).map (fun p => token :: p)
    | none =>
      match lookupA es VAR_TOKEN with
      | some br => (findWalk br rest).map (fun p => VAR_TOKEN :: p)
      | none => none

/-- `find_event_in_tree`. When the length bucket is absent, `branch` is
`None`: a line with at least one token then hits `None.get` and raises
`AttributeError` (modelled `.error ()`), while a zero-token line skips the
loop and returns the initial `clustered_line = ""`. -/
def find_event_in_tree (tree : List (ℕ × TokTree)) (line : Str) :
    Except Unit (Option Str) :=
  let tokens := splitWS line
  match lookupA tree tokens.length with
  | some branch => .ok ((findWalk branch tokens).map joinSp)
  | none => if tokens.length = 0 then .ok (some (joinSp [])) else .error ()

/-- Worker for `extract_vars_from_line`: enumerate the event tokens; at each
`VAR_TOKEN` read `line[i]`, raising `IndexError` (modelled `.error ()`) when
`i` is past the end of the line's tokens. -/
def extractAux (lineToks : List Tok) : List Tok → ℕ → Except Unit (List Tok)
  | [], _ => .ok []
  | token :: rest, i =>
    if token = VAR_TOKEN then
      match lineToks.get? i with
      | none => .error ()
      | some v => (extractAux lineToks rest (i + 1)).map (fun vs => v :: vs)
    else extractAux lineToks rest (i + 1)

/-- `extract_vars_from_line`. -/
def extract_vars_from_line (line : Str) (event : Str) : Except Unit (List Tok) :=
  extractAux (splitWS line) (splitWS event) 0

/-- The `while children and i < len(variables):` loop of `calculate_prob`,
carrying the running `count`. -/
def walkVars : VarTree → ℕ → List Tok → ℕ
  | VarTree.node [], count, _ => count
  | _, count, [] => count
  | VarTree.node (e :: es), count, v :: vs =>
    match lookupA (e :: es) v with
    | none => count
    | some (c, children) => walkVars children c vs

deriving instance DecidableEq for Except

/-- `calculate_prob`. For a known event with variables, the source reads
`level = var_tree.get(variables[0])` and then `level['count']`: when the
first value is absent this is `None['count']`, a `TypeError` (modelled
`.error ()`). When present, the read count is immediately overwritten by
`count = 1` before the loop, which is why the walk starts from count `1`. -/
def calculate_prob (event : Str) (variables_ : List Tok) (clusters : Catalog)
    (total_lines : ℚ) : Except Unit (ℚ × Option ℚ) :=
  match lookupA clusters event with
  | none => .ok (ratDiv 1 (ratAdd total_lines 1), none)
  | some entry =>
    let event_prob := ratDiv entry.total_lines total_lines
    match variables_ with
    | [] => .ok (event_prob, none)
    | v :: rest =>
      match lookupA entry.vars.entries v with
      | none => .error ()
      | some (_, children) =>
        .ok (event_prob, some (ratDiv (walkVars children 1 rest : ℚ) entry.total_lines))

/-! Derived observers and instrumentation used by the verification layer.
These do not change the embedded program; they name parts of it so that
properties can be stated. -/

/-- The token lists the Line Partitioner actually processes: non-empty raw
lines, whitespace-tokenized (identical to the first step of
`cluster_lines_by_len`). -/
def tokenized_input (lines : List Str) : List Line :=
  (lines.filter (· ≠ [])).map splitWS

/-- The prior lines merged by the Line Partitioner: for each token-count
group present in the input, the prior lines filed under that length. -/
def mergedPrev (lines : List Str) (prev_clusters : List (ℕ × List Line)) : List Line :=
  (groupPairs (fun l : Line => l.length) (tokenized_input lines)).flatMap
    (fun g => (lookupA prev_clusters g.1).getD [])

/-- Sum of `total_lines` over the catalog entries of one line length. -/
def catSum (cat : Catalog) (L : ℕ) : ℚ :=
  ((cat.filter (fun e => e.2.line_len = L)).map (fun e => e.2.total_lines)).sum

/-- Sum of member counts over the worklist clusters of one length. -/
def wlSum (W : List Cluster) (L : ℕ) : ℚ :=
  ((W.filter (fun c => c.length = L)).map (fun c => (c.lines.length : ℚ))).sum

/-- Well-formedness of the previously-discovered-clusters argument, as the
spec's data model requires: lines filed under length `L` have `L` tokens, and
every token is a whitespace-split token (non-empty, whitespace-free);
`VAR_TOKEN` itself is such a token. -/
def WFprev (prev_clusters : List (ℕ × List Line)) : Prop :=
  ∀ p ∈ prev_clusters, ∀ l ∈ p.2, l.length = p.1 ∧ ∀ t ∈ l, GoodTok t

instance (prev_clusters : List (ℕ × List Line)) : Decidable (WFprev prev_clusters) := by
  unfold WFprev; infer_instance

/-- Same loop body as `processOne`, but collecting the terminal clusters
themselves instead of their finalized catalog entries. -/
def processOneT (threshold : ℚ) (st : List Cluster × List Cluster) (cluster : Cluster) :
    List Cluster × List Cluster :=
  let r := find_cluster_position cluster threshold
  match r.1 with
  | some p => (st.1 ++ create_new_clusters r.2 p, st.2)
  | none => (st.1, st.2 ++ [r.2])

/-- The terminal clusters produced by the `while cluster_candidates:` loop, in
finalization order. -/
def runTerminal (threshold : ℚ) : ℕ → List Cluster → List Cluster
  | _, [] => []
  | 0, _ :: _ => []
  | fuel + 1, c :: cs =>
    let r := (c :: cs).foldl (processOneT threshold) ([], [])
    r.2 ++ runTerminal threshold fuel r.1

/-- The terminal clusters of a `cluster_lines` run (same roots, same fuel). -/
def cluster_terminals (lines : List Str) (prev_clusters : List (ℕ × List Line))
    (threshold : ℚ) : List Cluster :=
  let cluster_candidates := cluster_lines_by_len lines prev_clusters
  let fuel := (cluster_candidates.map (fun c => c.length)).foldr max 0 + 2
  runTerminal threshold fuel cluster_candidates

/-- Finalize a list of terminal clusters into a catalog, in order. -/
def catFoldFinal (final : Catalog) (cs : List Cluster) : Catalog :=
  cs.foldl (fun f c => insertA f (create_final_cluster c).1 (create_final_cluster c).2) final

/-- Number of not-yet-fixed positions of a cluster; strictly decreases from a
parent to each child of a split, bounding the number of worklist rounds. -/
def Cluster.depth (c : Cluster) : ℕ :=
  ((List.range c.length).filter (fun p => p ∉ c.indexes)).length

/-- All members share value `v` at position `p`. -/
def linesVal (c : Cluster) (p : ℕ) (v : Tok) : Prop :=
  ∀ l ∈ c.lines, l.getD p [] = v

/-- A well-formed cluster: non-empty, members all of the cluster's length with
well-formed tokens, fixed positions within range. -/
def WFc (c : Cluster) : Prop :=
  c.lines ≠ [] ∧ (∀ l ∈ c.lines, l.length = c.length ∧ ∀ t ∈ l, GoodTok t) ∧
    ∀ p ∈ c.indexes, p < c.length

/-- Two same-length clusters are separated: some position is fixed in both,
constant on each side, with different constants. Such clusters can never
finalize to the same identity. -/
def SepCC (c₁ c₂ : Cluster) : Prop :=
  c₁.length = c₂.length →
    ∃ p v₁ v₂, p ∈ c₁.indexes ∧ p ∈ c₂.indexes ∧
      linesVal c₁ p v₁ ∧ linesVal c₂ p v₂ ∧ v₁ ≠ v₂

/-- A cluster is separated from an already-finalized identity of the same
length: some fixed, constant position of the cluster disagrees with the
identity's token there. -/
def SepCE (c : Cluster) (e : Str) (len_e : ℕ) : Prop :=
  len_e = c.length →
    ∃ p v, p ∈ c.indexes ∧ linesVal c p v ∧ (splitWS e).getD p [] ≠ v

/-- Invariant tying a worklist and the catalog built so far. -/
def InvState (W : List Cluster) (final : Catalog) : Prop :=
  (∀ c ∈ W, WFc c) ∧ W.Pairwise SepCC ∧
    (∀ c ∈ W, ∀ ed ∈ final, SepCE c ed.1 ed.2.line_len) ∧
    (final.map (fun ed => ed.1)).Nodup ∧
    ∀ ed ∈ final, (splitWS ed.1).length = ed.2.line_len ∧ 1 ≤ ed.2.total_lines

/-- A qualifying split candidate in `find_cluster_position`: marker-free, not
constant, and with uniqueness ratio strictly below the threshold. -/
def fcpQual (cm : ℕ → List Tok) (size threshold : ℚ) (q : ℕ) : Prop :=
  VAR_TOKEN ∉ cm q ∧ (cm q).length ≠ 1 ∧ ratDiv ((cm q).length : ℚ) size < threshold

/-- Invariant of the scanning loop of `find_cluster_position`: the `indexes`
component holds the initial indexes plus the constant marker-free positions
seen so far, and the candidate component is the first minimum-cardinality
qualifying position seen so far. -/
def fcpInv (cm : ℕ → List Tok) (size threshold : ℚ) (idx₀ done : List ℕ)
    (st : Option ℕ × Option ℕ × List ℕ) : Prop :=
  (∀ x, x ∈ st.2.2 ↔ x ∈ idx₀ ∨ (x ∈ done ∧ VAR_TOKEN ∉ cm x ∧ (cm x).length = 1)) ∧
  match st.2.1 with
  | none => st.1 = none ∧ ∀ q ∈ done, ¬ fcpQual cm size threshold q
  | some p => st.1 = some ((cm p).length) ∧ p ∈ done ∧ fcpQual cm size threshold p ∧
      ∀ q ∈ done, fcpQual cm size threshold q → (cm p).length ≤ (cm q).length

/-! Basic facts about the rational helpers. -/

/-- `ratDiv` is division on `ℚ`. -/
theorem ratDiv_eq_div (a b : ℚ) : ratDiv a b = a / b := by
  rw [ratDiv, Rat.divInt_eq_div]
  push_cast
  conv_rhs => rw [← Rat.num_div_den a, ← Rat.num_div_den b]
  have ha : ((a.den : ℚ)) ≠ 0 := Nat.cast_ne_zero.mpr a.den_ne_zero
  rcases eq_or_ne b.num 0 with hbn | hbn
  · simp [hbn]
  · have hb : ((b.den : ℚ)) ≠ 0 := Nat.cast_ne_zero.mpr b.den_ne_zero
    have hbn' : ((b.num : ℚ)) ≠ 0 := Int.cast_ne_zero.mpr hbn
    field_simp

/-- `ratAdd` is addition on `ℚ`. -/
theorem ratAdd_eq_add (a b : ℚ) : ratAdd a b = a + b := by
  rw [ratAdd, Rat.divInt_eq_div]
  push_cast
  conv_rhs => rw [← Rat.num_div_den a, ← Rat.num_div_den b]
  have ha : ((a.den : ℚ)) ≠ 0 := Nat.cast_ne_zero.mpr a.den_ne_zero
  have hb : ((b.den : ℚ)) ≠ 0 := Nat.cast_ne_zero.mpr b.den_ne_zero
  field_simp

/-! Theory of whitespace splitting and space joining. -/

/-- The variable marker is itself a well-formed token. -/
theorem goodTok_VAR : GoodTok VAR_TOKEN := by decide

/-- The space character is whitespace. -/
theorem isWS_space : isWS ' ' = true := rfl

/-- Splitting consumes a whitespace-free prefix into the accumulator. -/
theorem splitWSAux_word (t : List Char) (ht : ∀ c ∈ t, isWS c = false) :
    ∀ (r acc : List Char), splitWSAux (t ++ r) acc = splitWSAux r (t.reverse ++ acc) := by
  induction t with
  | nil => intro r acc; simp
  | cons c t ih =>
    intro r acc
    have hc : isWS c = false := ht c (List.mem_cons_self c t)
    simp only [List.cons_append, splitWSAux, hc, Bool.false_eq_true, if_false, List.append_eq]
    rw [ih (fun d hd => ht d (List.mem_cons_of_mem c hd)) r (c :: acc)]
    simp

/-- A single well-formed token splits to itself. -/
theorem splitWS_single {t : Tok} (h : GoodTok t) : splitWS t = [t] := by
  obtain ⟨hne, hgood⟩ := h
  have h1 : splitWSAux (t ++ []) [] = splitWSAux [] (t.reverse ++ []) :=
    splitWSAux_word t hgood [] []
  simp only [List.append_nil] at h1
  rw [splitWS, h1, splitWSAux]
  simp [hne]

/-- Splitting a well-formed token, a space, then a rest. -/
theorem splitWS_word_cons {t : Tok} (h : GoodTok t) (s : Str) :
    splitWS (t ++ ' ' :: s) = t :: splitWS s := by
  obtain ⟨hne, hgood⟩ := h
  have h1 := splitWSAux_word t hgood (' ' :: s) []
  simp only [List.append_nil] at h1
  rw [splitWS, h1, splitWSAux]
  have hrev : t.reverse ≠ [] := by simpa using hne
  simp [isWS_space, hrev, splitWS]

/-- Every chunk produced by `splitWS` is a well-formed token. -/
theorem splitWSAux_good :
    ∀ (s acc : List Char), (∀ ch ∈ acc, isWS ch = false) →
      ∀ u ∈ splitWSAux s acc, GoodTok u := by
  intro s
  induction s with
  | nil =>
    intro acc hacc u hu
    rw [splitWSAux] at hu
    by_cases h0 : acc = []
    · simp [h0] at hu
    · rw [if_neg h0] at hu
      rcases List.mem_singleton.mp hu with rfl
      refine ⟨by simpa using h0, ?_⟩
      intro ch hch
      exact hacc ch (List.mem_reverse.mp hch)
  | cons c cs ih =>
    intro acc hacc u hu
    rw [splitWSAux] at hu
    by_cases hc : isWS c
    · rw [if_pos hc] at hu
      by_cases h0 : acc = []
      · rw [if_pos h0] at hu
        exact ih [] (by simp) u hu
      · rw [if_neg h0] at hu
        rcases List.mem_cons.mp hu with rfl | hu'
        · refine ⟨by simpa using h0, ?_⟩
          intro ch hch
          exact hacc ch (List.mem_reverse.mp hch)
        · exact ih [] (by simp) u hu'
    · rw [if_neg hc] at hu
      refine ih (c :: acc) ?_ u hu
      intro ch hch
      rcases List.mem_cons.mp hch with rfl | hch'
      · exact Bool.not_eq_true _ ▸ by simpa using hc
      · exact hacc ch hch'

/-- Every token of a split line is well formed. -/
theorem splitWS_good (s : Str) : ∀ u ∈ splitWS s, GoodTok u :=
  splitWSAux_good s [] (by simp)

/-- Splitting a space-join of well-formed tokens recovers the tokens. -/
theorem splitWS_joinSp : ∀ (ts : List Tok), (∀ t ∈ ts, GoodTok t) →
    splitWS (joinSp ts) = ts := by
  intro ts
  induction ts with
  | nil => intro _; rfl
  | cons t ts ih =>
    intro h
    cases ts with
    | nil => exact splitWS_single (h t (List.mem_cons_self t []))
    | cons u us =>
      rw [joinSp, splitWS_word_cons (h t (List.mem_cons_self t (u :: us)))]
      rw [ih (fun x hx => h x (List.mem_cons_of_mem t hx))]

/-! Association-list, set-list and grouping theory. -/

/-- Membership after a set-insert. -/
theorem mem_addNew {α : Type} [DecidableEq α] (acc : List α) (a x : α) :
    x ∈ addNew acc a ↔ x ∈ acc ∨ x = a := by
  unfold addNew
  by_cases h : a ∈ acc
  · simp only [if_pos h]
    constructor
    · exact Or.inl
    · rintro (hx | rfl)
      · exact hx
      · exact h
  · simp [if_neg h]

/-- A failed lookup means the key is absent. -/
theorem lookupA_eq_none {α β : Type} [DecidableEq α] (l : List (α × β)) (k : α) :
    lookupA l k = none ↔ k ∉ l.map Prod.fst := by
  induction l with
  | nil => simp [lookupA]
  | cons hd tl ih =>
    obtain ⟨k₀, v₀⟩ := hd
    by_cases h : k₀ = k
    · subst h
      simp [lookupA]
    · simp [lookupA, if_neg h, ih, Ne.symm h]

/-- A successful lookup returns a member entry. -/
theorem mem_of_lookupA {α β : Type} [DecidableEq α] {l : List (α × β)} {k : α} {v : β}
    (h : lookupA l k = some v) : (k, v) ∈ l := by
  induction l with
  | nil => simp [lookupA] at h
  | cons hd tl ih =>
    obtain ⟨k₀, v₀⟩ := hd
    rw [lookupA] at h
    by_cases hk : k₀ = k
    · rw [if_pos hk] at h
      injection h with h
      subst hk
      subst h
      exact List.mem_cons_self _ _
    · rw [if_neg hk] at h
      exact List.mem_cons_of_mem _ (ih h)

/-- With duplicate-free keys, a member entry is what lookup returns. -/
theorem lookupA_of_mem_nodup {α β : Type} [DecidableEq α] {l : List (α × β)}
    (hn : (l.map Prod.fst).Nodup) {k : α} {v : β} (hm : (k, v) ∈ l) :
    lookupA l k = some v := by
  induction l with
  | nil => simp at hm
  | cons hd tl ih =>
    obtain ⟨k₀, v₀⟩ := hd
    rw [List.map_cons, List.nodup_cons] at hn
    rcases List.mem_cons.mp hm with heq | hmem
    · rw [Prod.mk.injEq] at heq
      obtain ⟨h1, h2⟩ := heq
      subst h1
      subst h2
      simp [lookupA]
    · have hk : k₀ ≠ k := by
        rintro rfl
        exact hn.1 (List.mem_map.mpr ⟨(k₀, v), hmem, rfl⟩)
      rw [lookupA, if_neg hk]
      exact ih hn.2 hmem

/-- Inserting a fresh key appends the entry. -/
theorem insertA_of_not_mem {α β : Type} [DecidableEq α] {l : List (α × β)} {k : α}
    (h : k ∉ l.map Prod.fst) (v : β) : insertA l k v = l ++ [(k, v)] := by
  induction l with
  | nil => rfl
  | cons hd tl ih =>
    obtain ⟨k₀, v₀⟩ := hd
    simp only [List.map_cons, List.mem_cons, not_or] at h
    rw [insertA, if_neg (fun hh => h.1 hh.symm), ih h.2]
    rfl

/-- Entries after an insert come from the insert or the old list. -/
theorem mem_insertA {α β : Type} [DecidableEq α] {l : List (α × β)} {k : α} {v : β} :
    ∀ e ∈ insertA l k v, e = (k, v) ∨ e ∈ l := by
  induction l with
  | nil => intro e he; simp [insertA] at he; exact Or.inl he
  | cons hd tl ih =>
    obtain ⟨k₀, v₀⟩ := hd
    intro e he
    rw [insertA] at he
    by_cases hk : k₀ = k
    · rw [if_pos hk] at he
      rcases List.mem_cons.mp he with rfl | hmem
      · exact Or.inl rfl
      · exact Or.inr (List.mem_cons_of_mem _ hmem)
    · rw [if_neg hk] at he
      rcases List.mem_cons.mp he with rfl | hmem
      · exact Or.inr (List.mem_cons_self _ _)
      · rcases ih e hmem with h | h
        · exact Or.inl h
        · exact Or.inr (List.mem_cons_of_mem _ h)

/-- Keys after an insert. -/
theorem map_fst_insertA {α β : Type} [DecidableEq α] (l : List (α × β)) (k : α) (v : β) :
    (insertA l k v).map Prod.fst =
      if k ∈ l.map Prod.fst then l.map Prod.fst else l.map Prod.fst ++ [k] := by
  induction l with
  | nil => simp [insertA]
  | cons hd tl ih =>
    obtain ⟨k₀, v₀⟩ := hd
    rw [insertA]
    by_cases hk : k₀ = k
    · subst hk
      simp
    · simp only [if_neg hk, List.map_cons, ih, List.mem_cons]
      by_cases hm : k ∈ tl.map Prod.fst
      · simp [hm, Ne.symm hk]
      · simp [hm, Ne.symm hk, List.cons_append]

/-- Insert preserves duplicate-free keys. -/
theorem nodup_map_fst_insertA {α β : Type} [DecidableEq α] {l : List (α × β)}
    (h : (l.map Prod.fst).Nodup) (k : α) (v : β) :
    ((insertA l k v).map Prod.fst).Nodup := by
  rw [map_fst_insertA]
  by_cases hm : k ∈ l.map Prod.fst
  · simpa [hm] using h
  · rw [if_neg hm]
    refine List.Nodup.append h (List.nodup_singleton k) ?_
    intro a ha hb
    rw [List.mem_singleton] at hb
    subst hb
    exact hm ha

/-- Lookup after an insert at the inserted key. -/
theorem lookupA_insertA_self {α β : Type} [DecidableEq α] (l : List (α × β)) (k : α) (v : β) :
    lookupA (insertA l k v) k = some v := by
  induction l with
  | nil => simp [insertA, lookupA]
  | cons hd tl ih =>
    obtain ⟨k₀, v₀⟩ := hd
    rw [insertA]
    by_cases hk : k₀ = k
    · rw [if_pos hk]
      simp [lookupA]
    · rw [if_neg hk]
      simp only [lookupA, if_neg hk]
      exact ih

/-- Lookup after an insert at a different key. -/
theorem lookupA_insertA_ne {α β : Type} [DecidableEq α] (l : List (α × β)) (k : α) (v : β)
    {k' : α} (h : k' ≠ k) : lookupA (insertA l k v) k' = lookupA l k' := by
  induction l with
  | nil => simp [insertA, lookupA, Ne.symm h]
  | cons hd tl ih =>
    obtain ⟨k₀, v₀⟩ := hd
    rw [insertA]
    by_cases hk : k₀ = k
    · rw [if_pos hk]
      subst hk
      simp only [lookupA, if_neg (Ne.symm h)]
    · rw [if_neg hk]
      simp only [lookupA]
      by_cases hk' : k₀ = k'
      · rw [if_pos hk', if_pos hk']
      · rw [if_neg hk', if_neg hk']
        exact ih

/-- Lookup after a grouping step. -/
theorem lookupA_groupUpd {α β : Type} [DecidableEq α] (key : α) (b : β)
    (acc : List (α × List β)) (k : α) :
    lookupA (groupUpd key b acc) k =
      if k = key then some ((lookupA acc k).getD [] ++ [b]) else lookupA acc k := by
  induction acc with
  | nil =>
    by_cases h : k = key
    · subst h; simp [groupUpd, lookupA]
    · simp [groupUpd, lookupA, Ne.symm h, h]
  | cons hd tl ih =>
    obtain ⟨k₀, bs₀⟩ := hd
    rw [groupUpd]
    by_cases h₀ : k₀ = key
    · subst h₀
      rw [if_pos rfl]
      by_cases hk : k₀ = k
      · subst hk
        simp [lookupA]
      · simp only [lookupA, if_neg hk]
        rw [if_neg (fun hh : k = k₀ => hk hh.symm)]
    · rw [if_neg h₀]
      simp only [lookupA]
      by_cases hk : k₀ = k
      · subst hk
        rw [if_pos rfl, if_pos rfl, if_neg (fun hh : k₀ = key => h₀ hh)]
      · rw [if_neg hk, if_neg hk, ih]

/-- Keys after a grouping step. -/
theorem map_fst_groupUpd {α β : Type} [DecidableEq α] (key : α) (b : β)
    (acc : List (α × List β)) :
    (groupUpd key b acc).map Prod.fst =
      if key ∈ acc.map Prod.fst then acc.map Prod.fst else acc.map Prod.fst ++ [key] := by
  induction acc with
  | nil => simp [groupUpd]
  | cons hd tl ih =>
    obtain ⟨k₀, bs₀⟩ := hd
    rw [groupUpd]
    by_cases h₀ : k₀ = key
    · subst h₀
      simp
    · simp only [if_neg h₀, List.map_cons, ih, List.mem_cons]
      by_cases hm : key ∈ tl.map Prod.fst
      · simp [hm, Ne.symm h₀]
      · simp [hm, Ne.symm h₀, List.cons_append]

/-- A grouping step preserves duplicate-free keys. -/
theorem nodup_map_fst_groupUpd {α β : Type} [DecidableEq α] {acc : List (α × List β)}
    (h : (acc.map Prod.fst).Nodup) (key : α) (b : β) :
    ((groupUpd key b acc).map Prod.fst).Nodup := by
  rw [map_fst_groupUpd]
  by_cases hm : key ∈ acc.map Prod.fst
  · simpa [hm] using h
  · rw [if_neg hm]
    refine List.Nodup.append h (List.nodup_singleton key) ?_
    intro a ha hb
    rw [List.mem_singleton] at hb
    subst hb
    exact hm ha

/-- Lookup in the grouping fold, relative to an arbitrary accumulator. -/
theorem lookupA_foldl_groupUpd {α β : Type} [DecidableEq α] (f : β → α) :
    ∀ (bs : List β) (acc : List (α × List β)) (k : α),
      lookupA (bs.foldl (fun a b => groupUpd (f b) b a) acc) k =
        match lookupA acc k with
        | some g => some (g ++ bs.filter (fun b => f b = k))
        | none =>
          if (bs.filter (fun b => f b = k)).isEmpty then none
          else some (bs.filter (fun b => f b = k)) := by
  intro bs
  induction bs with
  | nil =>
    intro acc k
    cases hacc : lookupA acc k <;> simp [hacc]
  | cons b bs ih =>
    intro acc k
    rw [List.foldl_cons, ih]
    by_cases hk : f b = k
    · rw [lookupA_groupUpd, if_pos hk.symm]
      cases hacc : lookupA acc k with
      | none => simp [hacc, List.filter_cons, hk]
      | some g => simp [hacc, List.filter_cons, hk]
    · rw [lookupA_groupUpd, if_neg (fun hh => hk hh.symm)]
      cases hacc : lookupA acc k with
      | none => simp [hacc, List.filter_cons, hk]
      | some g => simp [hacc, List.filter_cons, hk]

/-- Lookup in a grouping: exactly the same-key sublist, when non-empty. -/
theorem lookupA_groupPairs {α β : Type} [DecidableEq α] (f : β → α) (bs : List β) (k : α) :
    lookupA (groupPairs f bs) k =
      if (bs.filter (fun b => f b = k)).isEmpty then none
      else some (bs.filter (fun b => f b = k)) := by
  have h := lookupA_foldl_groupUpd f bs [] k
  simpa [groupPairs, lookupA] using h

/-- Grouping produces duplicate-free keys. -/
theorem nodup_map_fst_groupPairs {α β : Type} [DecidableEq α] (f : β → α) (bs : List β) :
    ((groupPairs f bs).map Prod.fst).Nodup := by
  have aux : ∀ (bs : List β) (acc : List (α × List β)), (acc.map Prod.fst).Nodup →
      (((bs.foldl (fun a b => groupUpd (f b) b a) acc)).map Prod.fst).Nodup := by
    intro bs
    induction bs with
    | nil => intro acc h; exact h
    | cons b bs ih =>
      intro acc h
      exact ih _ (nodup_map_fst_groupUpd h (f b) b)
  exact aux bs [] (by simp)

/-- A group entry is the same-key sublist and is non-empty. -/
theorem mem_groupPairs {α β : Type} [DecidableEq α] {f : β → α} {bs : List β}
    {k : α} {g : List β} (h : (k, g) ∈ groupPairs f bs) :
    g = bs.filter (fun b => f b = k) ∧ g ≠ [] := by
  have hl := lookupA_of_mem_nodup (nodup_map_fst_groupPairs f bs) h
  rw [lookupA_groupPairs] at hl
  by_cases hf : (bs.filter (fun b => f b = k)).isEmpty
  · rw [if_pos hf] at hl
    cases hl
  · rw [if_neg hf] at hl
    injection hl with hl
    refine ⟨hl.symm, ?_⟩
    rw [← hl]
    intro hg
    rw [hg] at hf
    exact hf rfl

/-- A grouping step moves the new element into its group, up to permutation. -/
theorem flatMap_groupUpd_perm {α β : Type} [DecidableEq α] (key : α) (b : β)
    (acc : List (α × List β)) :
    ((groupUpd key b acc).flatMap Prod.snd).Perm (acc.flatMap Prod.snd ++ [b]) := by
  induction acc with
  | nil => simp [groupUpd]
  | cons hd tl ih =>
    obtain ⟨k₀, bs₀⟩ := hd
    rw [groupUpd]
    by_cases h₀ : k₀ = key
    · rw [if_pos h₀]
      simp only [List.flatMap_cons]
      have h1 : (bs₀ ++ [b]) ++ tl.flatMap Prod.snd = bs₀ ++ ([b] ++ tl.flatMap Prod.snd) := by
        rw [List.append_assoc]
      have h2 : (bs₀ ++ tl.flatMap Prod.snd) ++ [b] = bs₀ ++ (tl.flatMap Prod.snd ++ [b]) := by
        rw [List.append_assoc]
      rw [h1, h2]
      exact List.Perm.append_left bs₀ List.perm_append_comm
    · rw [if_neg h₀]
      simp only [List.flatMap_cons]
      refine (List.Perm.append_left bs₀ ih).trans ?_
      rw [List.append_assoc]

/-- The grouping fold only rearranges elements. -/
theorem flatMap_foldl_groupUpd_perm {α β : Type} [DecidableEq α] (f : β → α) :
    ∀ (bs : List β) (acc : List (α × List β)),
      ((bs.foldl (fun a b => groupUpd (f b) b a) acc).flatMap Prod.snd).Perm
        (acc.flatMap Prod.snd ++ bs) := by
  intro bs
  induction bs with
  | nil => intro acc; simp
  | cons b bs ih =>
    intro acc
    rw [List.foldl_cons]
    refine (ih (groupUpd (f b) b acc)).trans ?_
    refine (List.Perm.append_right bs (flatMap_groupUpd_perm (f b) b acc)).trans ?_
    rw [List.append_assoc]
    rfl

/-- Grouping is a permutation of the input. -/
theorem flatMap_groupPairs_perm {α β : Type} [DecidableEq α] (f : β → α) (bs : List β) :
    ((groupPairs f bs).flatMap Prod.snd).Perm bs := by
  have h := flatMap_foldl_groupUpd_perm f bs []
  simpa using h

/-! Characterization of `find_cluster_position`. -/

/-- One scan step preserves the loop invariant. -/
theorem fcpStep_inv {cm : ℕ → List Tok} {size threshold : ℚ} {idx₀ done : List ℕ}
    {st : Option ℕ × Option ℕ × List ℕ} (q : ℕ)
    (h : fcpInv cm size threshold idx₀ done st) :
    fcpInv cm size threshold idx₀ (done ++ [q]) (fcpStep cm size threshold st q) := by
  obtain ⟨hA, hB⟩ := h
  have extA : ∀ x, (x ∈ idx₀ ∨ (x ∈ done ∧ VAR_TOKEN ∉ cm x ∧ (cm x).length = 1)) →
      (x ∈ idx₀ ∨ (x ∈ done ++ [q] ∧ VAR_TOKEN ∉ cm x ∧ (cm x).length = 1)) := by
    rintro x (hx | ⟨hd, hv, hc⟩)
    · exact Or.inl hx
    · exact Or.inr ⟨List.mem_append_left _ hd, hv, hc⟩
  by_cases hvar : VAR_TOKEN ∈ cm q
  · rw [fcpStep]
    simp only [if_pos hvar]
    refine ⟨?_, ?_⟩
    · intro x
      rw [hA x]
      constructor
      · exact extA x
      · rintro (hx | ⟨hd, hv, hc⟩)
        · exact Or.inl hx
        · rcases List.mem_append.mp hd with hd | hd
          · exact Or.inr ⟨hd, hv, hc⟩
          · rw [List.mem_singleton] at hd
            subst hd
            exact absurd hvar hv
    · rcases hcand : st.2.1 with _ | p
      · rw [hcand] at hB
        refine ⟨hB.1, ?_⟩
        intro q' hq'
        rcases List.mem_append.mp hq' with hq' | hq'
        · exact hB.2 q' hq'
        · rw [List.mem_singleton] at hq'
          subst hq'
          exact fun hQ => hQ.1 hvar
      · rw [hcand] at hB
        refine ⟨hB.1, List.mem_append_left _ hB.2.1, hB.2.2.1, ?_⟩
        intro q' hq' hQ
        rcases List.mem_append.mp hq' with hq' | hq'
        · exact hB.2.2.2 q' hq' hQ
        · rw [List.mem_singleton] at hq'
          subst hq'
          exact absurd hvar hQ.1
  · by_cases hcard : (cm q).length = 1
    · rw [fcpStep]
      simp only [if_neg hvar, if_pos hcard]
      refine ⟨?_, ?_⟩
      · intro x
        rw [mem_addNew, hA x]
        constructor
        · rintro (hx | hx)
          · exact extA x hx
          · subst hx
            exact Or.inr ⟨List.mem_append_right _ (List.mem_singleton_self _), hvar, hcard⟩
        · rintro (hx | ⟨hd, hv, hc⟩)
          · exact Or.inl (Or.inl hx)
          · rcases List.mem_append.mp hd with hd | hd
            · exact Or.inl (Or.inr ⟨hd, hv, hc⟩)
            · rw [List.mem_singleton] at hd
              subst hd
              exact Or.inr rfl
      · rcases hcand : st.2.1 with _ | p
        · rw [hcand] at hB
          refine ⟨hB.1, ?_⟩
          intro q' hq'
          rcases List.mem_append.mp hq' with hq' | hq'
          · exact hB.2 q' hq'
          · rw [List.mem_singleton] at hq'
            subst hq'
            exact fun hQ => hQ.2.1 hcard
        · rw [hcand] at hB
          refine ⟨hB.1, List.mem_append_left _ hB.2.1, hB.2.2.1, ?_⟩
          intro q' hq' hQ
          rcases List.mem_append.mp hq' with hq' | hq'
          · exact hB.2.2.2 q' hq' hQ
          · rw [List.mem_singleton] at hq'
            subst hq'
            exact absurd hcard (fun hc => hQ.2.1 hc)
    · -- the candidate-update branch
      have keepA : ∀ (st' : Option ℕ × Option ℕ × List ℕ), st'.2.2 = st.2.2 →
          ∀ x, x ∈ st'.2.2 ↔ x ∈ idx₀ ∨
            (x ∈ done ++ [q] ∧ VAR_TOKEN ∉ cm x ∧ (cm x).length = 1) := by
        intro st' hst x
        rw [hst, hA x]
        constructor
        · exact extA x
        · rintro (hx | ⟨hd, hv, hc⟩)
          · exact Or.inl hx
          · rcases List.mem_append.mp hd with hd | hd
            · exact Or.inr ⟨hd, hv, hc⟩
            · rw [List.mem_singleton] at hd
              subst hd
              exact absurd hc hcard
      have keepB : ∀ (st' : Option ℕ × Option ℕ × List ℕ), st'.1 = st.1 → st'.2.1 = st.2.1 →
          ¬ fcpQual cm size threshold q →
          (match st'.2.1 with
           | none => st'.1 = none ∧ ∀ q' ∈ done ++ [q], ¬ fcpQual cm size threshold q'
           | some p => st'.1 = some ((cm p).length) ∧ p ∈ done ++ [q] ∧
               fcpQual cm size threshold p ∧
               ∀ q' ∈ done ++ [q], fcpQual cm size threshold q' →
                 (cm p).length ≤ (cm q').length) := by
        intro st' h1 h21 hnq
        rcases hcand : st.2.1 with _ | p
        · rw [hcand] at hB
          rw [h21, hcand]
          refine ⟨h1.trans hB.1, ?_⟩
          intro q' hq'
          rcases List.mem_append.mp hq' with hq' | hq'
          · exact hB.2 q' hq'
          · rw [List.mem_singleton] at hq'
            subst hq'
            exact hnq
        · rw [hcand] at hB
          rw [h21, hcand]
          refine ⟨h1.trans hB.1, List.mem_append_left _ hB.2.1, hB.2.2.1, ?_⟩
          intro q' hq' hQ
          rcases List.mem_append.mp hq' with hq' | hq'
          · exact hB.2.2.2 q' hq' hQ
          · rw [List.mem_singleton] at hq'
            subst hq'
            exact absurd hQ hnq
      rcases hmin : st.1 with _ | m
      · -- update is true
        by_cases hratio : ratDiv ((cm q).length : ℚ) size < threshold
        · rw [fcpStep]
          simp only [if_neg hvar, if_neg hcard, hmin, if_pos rfl, if_pos hratio]
          refine ⟨keepA _ rfl, ?_⟩
          have hQ : fcpQual cm size threshold q := ⟨hvar, hcard, hratio⟩
          refine ⟨rfl, List.mem_append_right _ (List.mem_singleton_self _), hQ, ?_⟩
          intro q' hq' hQ'
          rcases List.mem_append.mp hq' with hq' | hq'
          · exfalso
            rcases hcand : st.2.1 with _ | p
            · rw [hcand] at hB
              exact hB.2 q' hq' hQ'
            · rw [hcand] at hB
              rw [hB.1] at hmin
              cases hmin
          · rw [List.mem_singleton] at hq'
            subst hq'
            exact le_refl _
        · rw [fcpStep]
          simp only [if_neg hvar, if_neg hcard, hmin, if_pos rfl, if_neg hratio]
          exact ⟨keepA st rfl, keepB st rfl rfl (fun hQ => hratio hQ.2.2)⟩
      · by_cases hupd : m > (cm q).length
        · by_cases hratio : ratDiv ((cm q).length : ℚ) size < threshold
          · rw [fcpStep]
            simp only [if_neg hvar, if_neg hcard, hmin]
            rw [if_pos (decide_eq_true hupd), if_pos hratio]
            refine ⟨keepA _ rfl, ?_⟩
            have hQ : fcpQual cm size threshold q := ⟨hvar, hcard, hratio⟩
            refine ⟨rfl, List.mem_append_right _ (List.mem_singleton_self _), hQ, ?_⟩
            intro q' hq' hQ'
            rcases List.mem_append.mp hq' with hq' | hq'
            · rcases hcand : st.2.1 with _ | p
              · rw [hcand] at hB
                exact absurd hQ' (hB.2 q' hq')
              · rw [hcand] at hB
                rw [hB.1] at hmin
                injection hmin with hmin
                have hle := hB.2.2.2 q' hq' hQ'
                rw [hmin] at hle
                exact le_of_lt (lt_of_lt_of_le hupd hle)
            · rw [List.mem_singleton] at hq'
              subst hq'
              exact le_refl _
          · rw [fcpStep]
            simp only [if_neg hvar, if_neg hcard, hmin]
            rw [if_pos (decide_eq_true hupd), if_neg hratio]
            exact ⟨keepA st rfl, keepB st rfl rfl (fun hQ => hratio hQ.2.2)⟩
        · rw [fcpStep]
          simp only [if_neg hvar, if_neg hcard, hmin]
          rw [if_neg (by simpa using hupd)]
          refine ⟨keepA st rfl, ?_⟩
          rcases hcand : st.2.1 with _ | p
          · rw [hcand] at hB
            rw [hB.1] at hmin
            cases hmin
          · rw [hcand] at hB
            refine ⟨hB.1, List.mem_append_left _ hB.2.1, hB.2.2.1, ?_⟩
            intro q' hq' hQ'
            rcases List.mem_append.mp hq' with hq' | hq'
            · exact hB.2.2.2 q' hq' hQ'
            · rw [List.mem_singleton] at hq'
              subst hq'
              rw [hB.1] at hmin
              injection hmin with hmin
              rw [hmin]
              exact le_of_not_lt hupd

/-- The scan fold preserves the loop invariant. -/
theorem fcpFold_inv {cm : ℕ → List Tok} {size threshold : ℚ} {idx₀ : List ℕ} :
    ∀ (ps done : List ℕ) (st : Option ℕ × Option ℕ × List ℕ),
      fcpInv cm size threshold idx₀ done st →
      fcpInv cm size threshold idx₀ (done ++ ps) (ps.foldl (fcpStep cm size threshold) st) := by
  intro ps
  induction ps with
  | nil => intro done st h; simpa using h
  | cons q ps ih =>
    intro done st h
    rw [List.foldl_cons]
    have h1 := fcpStep_inv q h
    have h2 := ih (done ++ [q]) _ h1
    rw [List.append_assoc] at h2
    simpa using h2

/-- `find_cluster_position` keeps the member lines. -/
theorem fcp_lines (c : Cluster) (threshold : ℚ) :
    ((find_cluster_position c threshold).2).lines = c.lines := by
  rw [find_cluster_position]
  by_cases h : c.size = 1 <;> simp [h]

/-- `find_cluster_position` keeps the length. -/
theorem fcp_length (c : Cluster) (threshold : ℚ) :
    ((find_cluster_position c threshold).2).length = c.length := by
  rw [find_cluster_position]
  by_cases h : c.size = 1 <;> simp [h]

/-- Main characterization of a multi-member scan: the mutated indexes and the
returned candidate. -/
theorem fcp_spec (c : Cluster) (threshold : ℚ) (hsize : c.size ≠ 1) :
    (∀ x, x ∈ (find_cluster_position c threshold).2.indexes ↔
        x ∈ c.indexes ∨ (x < c.length ∧ x ∉ c.indexes ∧
          VAR_TOKEN ∉ create_cardinality_map c x ∧
          (create_cardinality_map c x).length = 1)) ∧
    (∀ p, (find_cluster_position c threshold).1 = some p →
        p < c.length ∧ p ∉ c.indexes ∧
        fcpQual (create_cardinality_map c) c.size threshold p ∧
        ∀ q, q < c.length → q ∉ c.indexes →
          fcpQual (create_cardinality_map c) c.size threshold q →
          (create_cardinality_map c p).length ≤ (create_cardinality_map c q).length) ∧
    ((find_cluster_position c threshold).1 = none →
        ∀ q, q < c.length → q ∉ c.indexes →
          ¬ fcpQual (create_cardinality_map c) c.size threshold q) := by
  have hinit : fcpInv (create_cardinality_map c) c.size threshold c.indexes []
      (none, none, c.indexes) := by
    constructor
    · intro x; simp
    · exact ⟨rfl, by simp⟩
  have hfold := fcpFold_inv ((List.range c.length).filter (fun p => p ∉ c.indexes)) [] _ hinit
  rw [List.nil_append] at hfold
  obtain ⟨hA, hB⟩ := hfold
  have hmemcs : ∀ x, x ∈ (List.range c.length).filter (fun p => p ∉ c.indexes) ↔
      x < c.length ∧ x ∉ c.indexes := by
    intro x
    simp [List.mem_filter]
  have hfcp : find_cluster_position c threshold =
      ((((List.range c.length).filter (fun p => p ∉ c.indexes)).foldl
          (fcpStep (create_cardinality_map c) c.size threshold) (none, none, c.indexes)).2.1,
        { c with indexes := (((List.range c.length).filter (fun p => p ∉ c.indexes)).foldl
          (fcpStep (create_cardinality_map c) c.size threshold) (none, none, c.indexes)).2.2 }) := by
    rw [find_cluster_position, if_neg hsize]
  refine ⟨?_, ?_, ?_⟩
  · intro x
    rw [hfcp]
    rw [hA x]
    constructor
    · rintro (hx | ⟨hd, hv, hc⟩)
      · exact Or.inl hx
      · rcases (hmemcs x).mp hd with ⟨h1, h2⟩
        exact Or.inr ⟨h1, h2, hv, hc⟩
    · rintro (hx | ⟨h1, h2, hv, hc⟩)
      · exact Or.inl hx
      · exact Or.inr ⟨(hmemcs x).mpr ⟨h1, h2⟩, hv, hc⟩
  · intro p hp
    rw [hfcp] at hp
    simp only at hp
    rw [hp] at hB
    obtain ⟨_, hpd, hQ, hmin⟩ := hB
    rcases (hmemcs p).mp hpd with ⟨h1, h2⟩
    refine ⟨h1, h2, hQ, ?_⟩
    intro q hq1 hq2 hq3
    exact hmin q ((hmemcs q).mpr ⟨hq1, hq2⟩) hq3
  · intro hp
    rw [hfcp] at hp
    simp only at hp
    rw [hp] at hB
    intro q hq1 hq2
    exact hB.2 q ((hmemcs q).mpr ⟨hq1, hq2⟩)

/-- A returned split position implies the cluster was multi-member. -/
theorem fcp_some_size {c : Cluster} {threshold : ℚ} {p : ℕ}
    (hp : (find_cluster_position c threshold).1 = some p) : c.size ≠ 1 := by
  intro h
  rw [find_cluster_position, if_pos h] at hp
  cases hp

/-- The scan only grows the fixed-position set. -/
theorem fcp_indexes_mono (c : Cluster) (threshold : ℚ)
    (hwf : ∀ p ∈ c.indexes, p < c.length) :
    ∀ x ∈ c.indexes, x ∈ (find_cluster_position c threshold).2.indexes := by
  by_cases h : c.size = 1
  · rw [find_cluster_position, if_pos h]
    intro x hx
    simpa using hwf x hx
  · intro x hx
    exact ((fcp_spec c threshold h).1 x).mpr (Or.inl hx)

/-- The scan keeps fixed positions within range. -/
theorem fcp_indexes_range (c : Cluster) (threshold : ℚ)
    (hwf : ∀ p ∈ c.indexes, p < c.length) :
    ∀ x ∈ (find_cluster_position c threshold).2.indexes, x < c.length := by
  by_cases h : c.size = 1
  · rw [find_cluster_position, if_pos h]
    intro x hx
    simpa using hx
  · intro x hx
    rcases ((fcp_spec c threshold h).1 x).mp hx with hx' | ⟨h1, _⟩
    · exact hwf x hx'
    · exact h1

/-- A returned split position is in range, was not fixed before the scan, and
is not fixed after it. -/
theorem fcp_some_pos {c : Cluster} {threshold : ℚ} {p : ℕ}
    (hp : (find_cluster_position c threshold).1 = some p) :
    p < c.length ∧ p ∉ c.indexes ∧ p ∉ (find_cluster_position c threshold).2.indexes := by
  have hsize := fcp_some_size hp
  obtain ⟨hchar, hsome, _⟩ := fcp_spec c threshold hsize
  obtain ⟨h1, h2, hQ, _⟩ := hsome p hp
  refine ⟨h1, h2, ?_⟩
  intro hmem
  rcases (hchar p).mp hmem with hx | ⟨_, _, _, hc⟩
  · exact h2 hx
  · exact hQ.2.1 hc

/-- The head of a non-empty list is a member. -/
theorem headD_mem {α : Type} {l : List α} (h : l ≠ []) (d : α) : l.headD d ∈ l := by
  cases l with
  | nil => exact absurd rfl h
  | cons a t => simp

/-! Facts about `create_final_cluster`. -/

/-- The event data records the cluster's size and length. -/
theorem create_final_data (c : Cluster) :
    (create_final_cluster c).2.total_lines = c.size ∧
      (create_final_cluster c).2.line_len = c.length := by
  rw [create_final_cluster]
  by_cases h : c.indexes = [] <;> simp [h]

/-- The identity string of a finalized well-formed cluster splits back into
exactly `length` tokens, each either the variable marker or the example
line's token. -/
theorem create_final_event_toks (c : Cluster) (hwf : WFc c) :
    splitWS (create_final_cluster c).1 =
      (if c.indexes = [] then c.lines.headD []
       else (List.range c.length).map (fun position =>
        if position ∈ (List.range c.length).filter (fun p => p ∉ c.indexes) then VAR_TOKEN
        else (c.lines.headD []).getD position [])) := by
  obtain ⟨hne, hlines, hidx⟩ := hwf
  have hhead := headD_mem hne ([] : Line)
  have hheadlen : (c.lines.headD []).length = c.length := (hlines _ hhead).1
  rw [create_final_cluster]
  by_cases h : c.indexes = []
  · rw [if_pos h]
    simp only [if_pos h]
    exact splitWS_joinSp _ (fun t ht => (hlines _ hhead).2 t ht)
  · rw [if_neg h]
    simp only [if_neg h]
    refine splitWS_joinSp _ ?_
    intro t ht
    rcases List.mem_map.mp ht with ⟨p, hp, rfl⟩
    rw [List.mem_range] at hp
    by_cases hpv : p ∈ (List.range c.length).filter (fun q => q ∉ c.indexes)
    · rw [if_pos hpv]
      exact goodTok_VAR
    · rw [if_neg hpv]
      have hplen : p < (c.lines.headD []).length := hheadlen ▸ hp
      rw [List.getD_eq_getElem _ _ hplen]
      exact (hlines _ hhead).2 _ (List.getElem_mem _)

/-- The identity splits into `length` tokens. -/
theorem create_final_event_length (c : Cluster) (hwf : WFc c) :
    (splitWS (create_final_cluster c).1).length = c.length := by
  rw [create_final_event_toks c hwf]
  by_cases h : c.indexes = []
  · rw [if_pos h]
    exact (hwf.2.1 _ (headD_mem hwf.1 [])).1
  · rw [if_neg h]
    simp

/-- At a fixed position the identity token is the example line's token. -/
theorem create_final_event_getD_fixed (c : Cluster) (hwf : WFc c) {p : ℕ}
    (hp : p ∈ c.indexes) :
    (splitWS (create_final_cluster c).1).getD p [] = (c.lines.headD []).getD p [] := by
  rw [create_final_event_toks c hwf]
  by_cases h : c.indexes = []
  · rw [h] at hp
    cases hp
  · rw [if_neg h]
    have hplen : p < c.length := hwf.2.2 p hp
    rw [List.getD_eq_getElem _ _ (by simpa using hplen)]
    rw [List.getElem_map]
    rw [List.getElem_range]
    rw [if_neg (by simp [hp])]

/-! Generic counting lemmas for the depth measure. -/

/-- Filtering with a stronger predicate yields at most as many elements. -/
theorem filter_length_mono {α : Type} (pred0 pred1 : α → Bool)
    (himp : ∀ x, pred1 x = true → pred0 x = true) :
    ∀ l : List α, (l.filter pred1).length ≤ (l.filter pred0).length := by
  intro l
  induction l with
  | nil => simp
  | cons a t ih =>
    rw [List.filter_cons, List.filter_cons]
    by_cases h1 : pred1 a
    · rw [if_pos h1, if_pos (himp a h1)]
      simpa using ih
    · rw [if_neg h1]
      by_cases h0 : pred0 a
      · rw [if_pos h0]
        exact le_trans ih (by simp)
      · rw [if_neg h0]
        exact ih

/-- Filtering with a strictly stronger predicate on a witness member yields
strictly fewer elements. -/
theorem filter_length_lt {α : Type} {l : List α} {p : α} (hp : p ∈ l)
    (pred0 pred1 : α → Bool) (himp : ∀ x, pred1 x = true → pred0 x = true)
    (hp0 : pred0 p = true) (hp1 : pred1 p = false) :
    (l.filter pred1).length < (l.filter pred0).length := by
  induction l with
  | nil => cases hp
  | cons a t ih =>
    rw [List.filter_cons, List.filter_cons]
    rcases List.mem_cons.mp hp with rfl | hpt
    · rw [if_pos hp0, hp1]
      simp only [Bool.false_eq_true, if_false]
      exact Nat.lt_succ_of_le (filter_length_mono pred0 pred1 himp t)
    · by_cases h1 : pred1 a
      · rw [if_pos h1, if_pos (himp a h1)]
        simpa using ih hpt
      · rw [if_neg h1]
        by_cases h0 : pred0 a
        · rw [if_pos h0]
          exact lt_trans (ih hpt) (by simp)
        · rw [if_neg h0]
          exact ih hpt

/-! Facts about `create_new_clusters`. -/

/-- Unpack one child of a split: its members are the same-valued sublist at
the split position, and its fixed set is the parent's plus that position. -/
theorem child_facts {c : Cluster} {p : ℕ} (hwf : WFc c) (hp : p < c.length) :
    ∀ child ∈ create_new_clusters c p,
      (child.lines ≠ [] ∧ (∀ l ∈ child.lines, l ∈ c.lines) ∧
        child.length = c.length ∧
        (∀ x, x ∈ child.indexes ↔ x ∈ c.indexes ∨ x = p) ∧
        ∃ k, linesVal child p k ∧
          child.lines = c.lines.filter (fun l => l.getD p [] = k)) := by
  intro child hchild
  rw [create_new_clusters] at hchild
  simp only [List.mem_map] at hchild
  obtain ⟨⟨k, g⟩, hg, rfl⟩ := hchild
  obtain ⟨hfil, hgne⟩ := mem_groupPairs hg
  have hsub : ∀ l ∈ g, l ∈ c.lines := by
    intro l hl
    rw [hfil] at hl
    exact List.mem_of_mem_filter hl
  have hval : ∀ l ∈ g, l.getD p [] = k := by
    intro l hl
    rw [hfil] at hl
    have := List.of_mem_filter hl
    simpa using this
  have hlen : ∀ l ∈ g, l.length = c.length := fun l hl => (hwf.2.1 l (hsub l hl)).1
  have hheadlen : (g.headD []).length = c.length := hlen _ (headD_mem hgne [])
  refine ⟨hgne, hsub, ?_, ?_, ⟨k, ?_, hfil⟩⟩
  · show (mkCluster g (addNew c.indexes p) none).length = c.length
    rw [mkCluster]
    exact hheadlen
  · intro x
    show x ∈ addNew c.indexes p ↔ _
    rw [mem_addNew]
  · intro l hl
    exact hval l hl

/-- Every child of a split is well formed. -/
theorem child_wf {c : Cluster} {p : ℕ} (hwf : WFc c) (hp : p < c.length) :
    ∀ child ∈ create_new_clusters c p, WFc child := by
  intro child hchild
  obtain ⟨hne, hsub, hlen, hidx, _⟩ := child_facts hwf hp child hchild
  refine ⟨hne, ?_, ?_⟩
  · intro l hl
    rw [hlen]
    exact hwf.2.1 l (hsub l hl)
  · intro x hx
    rw [hlen]
    rcases (hidx x).mp hx with hx' | rfl
    · exact hwf.2.2 x hx'
    · exact hp

/-- Distinct children of one split are separated at the split position. -/
theorem children_pairwise_sep {c : Cluster} {p : ℕ} (hwf : WFc c) (hp : p < c.length) :
    (create_new_clusters c p).Pairwise SepCC := by
  have hnd : ((groupPairs (fun l : Line => l.getD p []) c.lines).map Prod.fst).Nodup :=
    nodup_map_fst_groupPairs _ _
  have hnd' : (groupPairs (fun l : Line => l.getD p []) c.lines).Pairwise
      (fun g₁ g₂ => g₁.1 ≠ g₂.1) := List.pairwise_map.mp hnd
  rw [create_new_clusters]
  rw [List.pairwise_map]
  refine List.Pairwise.imp_of_mem ?_ hnd'
  intro g₁ g₂ hg₁ hg₂ hne
  obtain ⟨k₁, gl₁⟩ := g₁
  obtain ⟨k₂, gl₂⟩ := g₂
  intro _
  refine ⟨p, k₁, k₂, ?_, ?_, ?_, ?_, hne⟩
  · show p ∈ addNew c.indexes p
    rw [mem_addNew]
    exact Or.inr rfl
  · show p ∈ addNew c.indexes p
    rw [mem_addNew]
    exact Or.inr rfl
  · intro l hl
    have hfil := (mem_groupPairs hg₁).1
    rw [show (mkCluster gl₁ (addNew c.indexes p) none).lines = gl₁ from rfl] at hl
    rw [hfil] at hl
    simpa using List.of_mem_filter hl
  · intro l hl
    have hfil := (mem_groupPairs hg₂).1
    rw [show (mkCluster gl₂ (addNew c.indexes p) none).lines = gl₂ from rfl] at hl
    rw [hfil] at hl
    simpa using List.of_mem_filter hl

/-! Sum bookkeeping lemmas. -/

/-- Worklist sums are empty on the empty list. -/
theorem wlSum_nil (L : ℕ) : wlSum [] L = 0 := rfl

/-- Catalog sums are empty on the empty catalog. -/
theorem catSum_nil (L : ℕ) : catSum [] L = 0 := rfl

/-- Worklist sums split over appends. -/
theorem wlSum_append (X Y : List Cluster) (L : ℕ) :
    wlSum (X ++ Y) L = wlSum X L + wlSum Y L := by
  simp [wlSum, List.filter_append]

/-- Worklist sums split off the head. -/
theorem wlSum_cons (c : Cluster) (X : List Cluster) (L : ℕ) :
    wlSum (c :: X) L = (if c.length = L then (c.lines.length : ℚ) else 0) + wlSum X L := by
  rw [wlSum, List.filter_cons]
  by_cases h : c.length = L
  · simp [h, wlSum]
  · simp [h, wlSum]

/-- Catalog sums split over appends. -/
theorem catSum_append (X Y : Catalog) (L : ℕ) :
    catSum (X ++ Y) L = catSum X L + catSum Y L := by
  simp [catSum, List.filter_append]

/-- Catalog sums split off the head. -/
theorem catSum_cons (ed : Str × EventData) (X : Catalog) (L : ℕ) :
    catSum (ed :: X) L =
      (if ed.2.line_len = L then ed.2.total_lines else 0) + catSum X L := by
  rw [catSum, List.filter_cons]
  by_cases h : ed.2.line_len = L
  · simp [h, catSum]
  · simp [h, catSum]

/-- Sum of naturals cast to rationals. -/
theorem sum_cast_list : ∀ l : List ℕ, (l.map (fun n : ℕ => (n : ℚ))).sum = ((l.sum : ℕ) : ℚ) := by
  intro l
  induction l with
  | nil => simp
  | cons a t ih =>
    rw [List.map_cons, List.sum_cons, List.sum_cons, ih]
    push_cast
    ring

/-- Total length of a flattened map equals the sum of the lengths. -/
theorem length_flatMap_eq_sum {α β : Type} (f : α → List β) (l : List α) :
    (l.flatMap f).length = (l.map (fun a => (f a).length)).sum := by
  induction l with
  | nil => simp
  | cons a t ih => simp [List.flatMap_cons, ih]

/-- The children of one split carry exactly the parent's members, per length. -/
theorem wlSum_children {c : Cluster} {p : ℕ} (hwf : WFc c) (hp : p < c.length) (L : ℕ) :
    wlSum (create_new_clusters c p) L =
      if c.length = L then (c.lines.length : ℚ) else 0 := by
  have hlen : ∀ child ∈ create_new_clusters c p, child.length = c.length := by
    intro child hchild
    exact (child_facts hwf hp child hchild).2.2.1
  by_cases hL : c.length = L
  · rw [if_pos hL]
    rw [wlSum]
    rw [List.filter_eq_self.mpr (by intro child hchild; simp [hlen child hchild, hL])]
    have h1 : ((create_new_clusters c p).map (fun c => (c.lines.length : ℚ))).sum =
        ((((create_new_clusters c p).map (fun c => c.lines.length)).sum : ℕ) : ℚ) := by
      rw [← sum_cast_list, List.map_map]
      rfl
    rw [h1]
    have h2 : ((create_new_clusters c p).map (fun c => c.lines.length)).sum =
        ((create_new_clusters c p).flatMap Cluster.lines).length :=
      (length_flatMap_eq_sum _ _).symm
    rw [h2]
    congr 1
    have h3 : (create_new_clusters c p).flatMap Cluster.lines =
        (groupPairs (fun l : Line => l.getD p []) c.lines).flatMap Prod.snd := by
      rw [create_new_clusters]
      rw [List.flatMap_map]
      rfl
    rw [h3]
    exact (flatMap_groupPairs_perm _ _).length_eq
  · rw [if_neg hL]
    rw [wlSum]
    have : (create_new_clusters c p).filter (fun c => c.length = L) = [] := by
      rw [List.filter_eq_nil_iff]
      intro child hchild
      simp [hlen child hchild, hL]
    rw [this]
    simp

/-! Separation transport lemmas. -/

/-- Separation of clusters is symmetric. -/
theorem sepCC_symm {a b : Cluster} (h : SepCC a b) : SepCC b a := by
  intro hlen
  obtain ⟨p, v₁, v₂, h1, h2, h3, h4, h5⟩ := h hlen.symm
  exact ⟨p, v₂, v₁, h2, h1, h4, h3, fun hh => h5 hh.symm⟩

/-- Separation descends to a cluster with a subset of the members, the same
length, and at least the fixed positions. -/
theorem sepCC_descend {c d x : Cluster} (hsub : ∀ l ∈ d.lines, l ∈ c.lines)
    (hlen : d.length = c.length) (hidx : ∀ q ∈ c.indexes, q ∈ d.indexes)
    (h : SepCC c x) : SepCC d x := by
  intro hdx
  obtain ⟨p, v₁, v₂, h1, h2, h3, h4, h5⟩ := h (hlen ▸ hdx)
  exact ⟨p, v₁, v₂, hidx p h1, h2, fun l hl => h3 l (hsub l hl), h4, h5⟩

/-- Entry separation descends the same way. -/
theorem sepCE_descend {c d : Cluster} (hsub : ∀ l ∈ d.lines, l ∈ c.lines)
    (hlen : d.length = c.length) (hidx : ∀ q ∈ c.indexes, q ∈ d.indexes)
    {e : Str} {len_e : ℕ} (h : SepCE c e len_e) : SepCE d e len_e := by
  intro hdx
  obtain ⟨p, v, h1, h2, h3⟩ := h (hdx.trans hlen)
  exact ⟨p, v, hidx p h1, fun l hl => h2 l (hsub l hl), h3⟩

/-- A cluster separated from a terminal cluster is separated from the
terminal cluster's finalized identity. -/
theorem sepCE_of_sepCC {x c' : Cluster} (hwf' : WFc c') (h : SepCC x c') :
    SepCE x (create_final_cluster c').1 (create_final_cluster c').2.line_len := by
  intro hlen
  rw [(create_final_data c').2] at hlen
  obtain ⟨p, v₁, v₂, hpx, hpc, hvx, hvc, hne⟩ := h hlen.symm
  refine ⟨p, v₁, hpx, hvx, ?_⟩
  rw [create_final_event_getD_fixed c' hwf' hpc]
  rw [hvc _ (headD_mem hwf'.1 [])]
  exact fun hh => hne hh.symm

/-- The identity of a finalized cluster is absent from a catalog it is
separated from. -/
theorem final_key_fresh {c' : Cluster} (hwf' : WFc c') {final : Catalog}
    (hsep : ∀ ed ∈ final, SepCE c' ed.1 ed.2.line_len)
    (hfin : ∀ ed ∈ final, (splitWS ed.1).length = ed.2.line_len) :
    (create_final_cluster c').1 ∉ final.map Prod.fst := by
  intro hmem
  obtain ⟨ed, hed, heq⟩ := List.mem_map.mp hmem
  by_cases hL : ed.2.line_len = c'.length
  · obtain ⟨p, v, hpc, hval, hneq⟩ := hsep ed hed hL
    apply hneq
    rw [heq]
    rw [create_final_event_getD_fixed c' hwf' hpc]
    exact hval _ (headD_mem hwf'.1 [])
  · apply hL
    rw [← hfin ed hed, heq, create_final_event_length c' hwf']

/-! The worklist round preserves the global invariant and the member counts. -/

/-- Transport of well-formedness and separations through the scan. -/
theorem fcp_cluster_facts (threshold : ℚ) {c : Cluster} (hwfc : WFc c) :
    WFc (find_cluster_position c threshold).2 ∧
    (find_cluster_position c threshold).2.lines = c.lines ∧
    (find_cluster_position c threshold).2.length = c.length ∧
    (∀ x ∈ c.indexes, x ∈ (find_cluster_position c threshold).2.indexes) ∧
    (find_cluster_position c threshold).2.depth ≤ c.depth := by
  have hlines' := fcp_lines c threshold
  have hlen' := fcp_length c threshold
  have hmono := fcp_indexes_mono c threshold hwfc.2.2
  have hrange := fcp_indexes_range c threshold hwfc.2.2
  refine ⟨⟨?_, ?_, ?_⟩, hlines', hlen', hmono, ?_⟩
  · rw [hlines']
    exact hwfc.1
  · intro l hl
    rw [hlines'] at hl
    rw [hlen']
    exact hwfc.2.1 l hl
  · intro x hx
    rw [hlen']
    exact hrange x hx
  · rw [Cluster.depth, Cluster.depth, hlen']
    refine filter_length_mono _ _ ?_ _
    intro x hx
    rw [decide_eq_true_eq] at hx
    rw [decide_eq_true_eq]
    intro hc
    exact hx (hmono x hc)

/-- One round of `cluster_lines` (the fold of `processOne`): the invariant is
preserved, every surviving cluster strictly dropped in depth, and the member
count per length is conserved. -/
theorem runRound_master (threshold : ℚ) (fuel : ℕ) :
    ∀ (cands next : List Cluster) (final : Catalog),
      InvState (cands ++ next) final →
      (∀ c ∈ cands, c.depth ≤ fuel) →
      (∀ c ∈ next, c.depth < fuel) →
      InvState ((cands.foldl (processOne threshold) (next, final)).1)
        ((cands.foldl (processOne threshold) (next, final)).2) ∧
      (∀ c' ∈ (cands.foldl (processOne threshold) (next, final)).1, c'.depth < fuel) ∧
      ∀ L, wlSum (cands.foldl (processOne threshold) (next, final)).1 L +
            catSum (cands.foldl (processOne threshold) (next, final)).2 L =
          wlSum (cands ++ next) L + catSum final L := by
  intro cands
  induction cands with
  | nil =>
    intro next final hInv hdc hdn
    refine ⟨by simpa using hInv, hdn, ?_⟩
    intro L
    simp
  | cons c cands ih =>
    intro next final hInv hdc hdn
    obtain ⟨hwfall, hPall, hsepall, hndkeys, hentw⟩ := hInv
    have hwfc : WFc c := hwfall c (List.mem_cons_self _ _)
    have hPc := (List.pairwise_cons.mp hPall).1
    have hPtail : (cands ++ next).Pairwise SepCC :=
      (List.pairwise_cons.mp hPall).2
    obtain ⟨hwf', hlines', hlen', hmono', hdepth'⟩ := fcp_cluster_facts threshold hwfc
    have hsub' : ∀ l ∈ (find_cluster_position c threshold).2.lines, l ∈ c.lines := by
      rw [hlines']
      exact fun l h => h
    have hsize' : (find_cluster_position c threshold).2.size = c.size := by
      rw [Cluster.size, Cluster.size, hlines']
    have hsepc' : ∀ x ∈ cands ++ next, SepCC (find_cluster_position c threshold).2 x :=
      fun x hx => sepCC_descend hsub' hlen' hmono' (hPc x hx)
    have hsepec' : ∀ ed ∈ final, SepCE (find_cluster_position c threshold).2 ed.1 ed.2.line_len :=
      fun ed hed => sepCE_descend hsub' hlen' hmono'
        (hsepall c (List.mem_cons_self _ _) ed hed)
    rw [List.foldl_cons]
    rcases hr : (find_cluster_position c threshold).1 with _ | p
    · -- terminal: finalize into the catalog
      have hfresh : (create_final_cluster (find_cluster_position c threshold).2).1 ∉
          final.map Prod.fst :=
        final_key_fresh hwf' hsepec' (fun ed hed => (hentw ed hed).1)
      have hst : processOne threshold (next, final) c =
          (next, insertA final (create_final_cluster (find_cluster_position c threshold).2).1
            (create_final_cluster (find_cluster_position c threshold).2).2) := by
        simp only [processOne, hr]
      rw [hst]
      have hins : insertA final (create_final_cluster (find_cluster_position c threshold).2).1
          (create_final_cluster (find_cluster_position c threshold).2).2 =
          final ++ [((create_final_cluster (find_cluster_position c threshold).2).1,
            (create_final_cluster (find_cluster_position c threshold).2).2)] :=
        insertA_of_not_mem hfresh _
      have hInv' : InvState (cands ++ next)
          (insertA final (create_final_cluster (find_cluster_position c threshold).2).1
            (create_final_cluster (find_cluster_position c threshold).2).2) := by
        refine ⟨?_, hPtail, ?_, ?_, ?_⟩
        · intro x hx
          exact hwfall x (List.mem_cons_of_mem _ hx)
        · intro x hx ed hed
          rw [hins] at hed
          rcases List.mem_append.mp hed with hed | hed
          · exact hsepall x (List.mem_cons_of_mem _ hx) ed hed
          · rw [List.mem_singleton] at hed
            subst hed
            exact sepCE_of_sepCC hwf'
              (sepCC_symm (sepCC_descend hsub' hlen' hmono' (hPc x hx)))
        · rw [hins]
          simp only [List.map_append, List.map_cons, List.map_nil]
          refine List.Nodup.append hndkeys (List.nodup_singleton _) ?_
          intro a ha hb
          rw [List.mem_singleton] at hb
          subst hb
          exact hfresh ha
        · intro ed hed
          rw [hins] at hed
          rcases List.mem_append.mp hed with hed | hed
          · exact hentw ed hed
          · rw [List.mem_singleton] at hed
            subst hed
            constructor
            · rw [create_final_event_length _ hwf']
              exact ((create_final_data _).2).symm
            · rw [(create_final_data _).1, hsize', Cluster.size]
              exact_mod_cast Nat.one_le_iff_ne_zero.mpr
                (fun h0 => hwfc.1 (List.length_eq_zero.mp h0))
      obtain ⟨hI, hD, hS⟩ := ih next _ hInv'
        (fun x hx => hdc x (List.mem_cons_of_mem _ hx)) hdn
      refine ⟨hI, hD, ?_⟩
      intro L
      rw [hS L]
      rw [hins, catSum_append, catSum_cons, catSum_nil]
      rw [show ((c :: cands) ++ next) = c :: (cands ++ next) from rfl, wlSum_cons]
      rw [(create_final_data _).2, (create_final_data _).1, hlen', hsize', Cluster.size]
      ring
    · -- split: push the children
      have hst : processOne threshold (next, final) c =
          (next ++ create_new_clusters (find_cluster_position c threshold).2 p, final) := by
        simp only [processOne, hr]
      rw [hst]
      obtain ⟨hplen, hpnotc, hpnotc'⟩ := fcp_some_pos hr
      have hp' : p < (find_cluster_position c threshold).2.length := by
        rw [hlen']
        exact hplen
      have hcf := child_facts hwf' hp'
      have hcw := child_wf hwf' hp'
      have hsubchild : ∀ child ∈ create_new_clusters (find_cluster_position c threshold).2 p,
          (∀ l ∈ child.lines, l ∈ (find_cluster_position c threshold).2.lines) ∧
          child.length = (find_cluster_position c threshold).2.length ∧
          (∀ q ∈ (find_cluster_position c threshold).2.indexes, q ∈ child.indexes) := by
        intro child hchild
        obtain ⟨_, hsub, hlen, hidx, _⟩ := hcf child hchild
        exact ⟨hsub, hlen, fun q hq => (hidx q).mpr (Or.inl hq)⟩
      have hchdepth : ∀ child ∈ create_new_clusters (find_cluster_position c threshold).2 p,
          child.depth < fuel := by
        intro child hchild
        obtain ⟨hsub, hclen, hcidx⟩ := hsubchild child hchild
        have hplt : child.depth < c.depth := by
          rw [Cluster.depth, Cluster.depth, hclen, hlen']
          refine filter_length_lt (List.mem_range.mpr hplen) _ _ ?_ ?_ ?_
          · intro x hx
            rw [decide_eq_true_eq] at hx
            rw [decide_eq_true_eq]
            intro hc
            exact hx (hcidx x (hmono' x hc))
          · rw [decide_eq_true_eq]
            exact hpnotc
          · have hpmem : p ∈ child.indexes := by
              obtain ⟨_, _, _, hidx, _⟩ := hcf child hchild
              exact (hidx p).mpr (Or.inr rfl)
            exact decide_eq_false (fun hn => hn hpmem)
        exact lt_of_lt_of_le hplt (hdc c (List.mem_cons_self _ _))
      have hsepxchild : ∀ x ∈ cands ++ next,
          ∀ child ∈ create_new_clusters (find_cluster_position c threshold).2 p,
            SepCC x child := by
        intro x hx child hchild
        obtain ⟨hsub, hclen, hcidx⟩ := hsubchild child hchild
        exact sepCC_symm (sepCC_descend hsub hclen hcidx (hsepc' x hx))
      have hInv' : InvState (cands ++ (next ++
          create_new_clusters (find_cluster_position c threshold).2 p)) final := by
        refine ⟨?_, ?_, ?_, hndkeys, hentw⟩
        · intro x hx
          rcases List.mem_append.mp hx with hx | hx
          · exact hwfall x (List.mem_cons_of_mem _ (List.mem_append_left _ hx))
          · rcases List.mem_append.mp hx with hx | hx
            · exact hwfall x (List.mem_cons_of_mem _ (List.mem_append_right _ hx))
            · exact hcw x hx
        · rw [← List.append_assoc]
          rw [List.pairwise_append]
          refine ⟨hPtail, children_pairwise_sep hwf' hp', hsepxchild⟩
        · intro x hx ed hed
          rcases List.mem_append.mp hx with hx | hx
          · exact hsepall x (List.mem_cons_of_mem _ (List.mem_append_left _ hx)) ed hed
          · rcases List.mem_append.mp hx with hx | hx
            · exact hsepall x (List.mem_cons_of_mem _ (List.mem_append_right _ hx)) ed hed
            · obtain ⟨hsub, hclen, hcidx⟩ := hsubchild x hx
              exact sepCE_descend hsub hclen hcidx (hsepec' ed hed)
      obtain ⟨hI, hD, hS⟩ := ih _ _ hInv'
        (fun x hx => hdc x (List.mem_cons_of_mem _ hx))
        (by
          intro x hx
          rcases List.mem_append.mp hx with hx | hx
          · exact hdn x hx
          · exact hchdepth x hx)
      refine ⟨hI, hD, ?_⟩
      intro L
      rw [hS L]
      rw [wlSum_append, wlSum_append]
      rw [show ((c :: cands) ++ next) = c :: (cands ++ next) from rfl, wlSum_cons, wlSum_append]
      have hch := wlSum_children hwf' hp' L
      rw [hlen', hlines'] at hch
      rw [hch]
      ring

/-- Fuel induction over the whole clustering loop: with adequate fuel the
catalog keeps distinct well-formed keys and conserves member counts. -/
theorem runClustering_master (threshold : ℚ) :
    ∀ (fuel : ℕ) (W : List Cluster) (final : Catalog),
      InvState W final →
      (∀ c ∈ W, c.depth < fuel) →
      InvState [] (runClustering threshold fuel W final) ∧
      ∀ L, catSum (runClustering threshold fuel W final) L = wlSum W L + catSum final L := by
  intro fuel
  induction fuel with
  | zero =>
    intro W final hInv hd
    cases W with
    | nil =>
      rw [runClustering]
      refine ⟨?_, ?_⟩
      · obtain ⟨_, _, _, h4, h5⟩ := hInv
        exact ⟨fun c hc => absurd hc (List.not_mem_nil c), List.Pairwise.nil,
          fun c hc => absurd hc (List.not_mem_nil c), h4, h5⟩
      · intro L
        rw [wlSum_nil]
        ring
    | cons c cs => exact absurd (hd c (List.mem_cons_self _ _)) (Nat.not_lt_zero _)
  | succ fuel ih =>
    intro W final hInv hd
    cases W with
    | nil =>
      rw [runClustering]
      refine ⟨?_, ?_⟩
      · obtain ⟨_, _, _, h4, h5⟩ := hInv
        exact ⟨fun c hc => absurd hc (List.not_mem_nil c), List.Pairwise.nil,
          fun c hc => absurd hc (List.not_mem_nil c), h4, h5⟩
      · intro L
        rw [wlSum_nil]
        ring
    | cons c cs =>
      have hrm := runRound_master threshold fuel (c :: cs) [] final
        (by simpa using hInv)
        (fun x hx => Nat.lt_succ_iff.mp (hd x hx)) (by simp)
      obtain ⟨hI, hD, hS⟩ := hrm
      obtain ⟨hI', hS'⟩ := ih _ _ hI hD
      simp only [runClustering, runRound]
      refine ⟨hI', ?_⟩
      intro L
      rw [hS' L, hS L]
      rw [List.append_nil]

/-! Facts about the root clusters built by the Line Partitioner. -/

/-- Any member of a list is at most its max-fold. -/
theorem le_foldr_max : ∀ (l : List ℕ), ∀ x ∈ l, x ≤ l.foldr max 0 := by
  intro l
  induction l with
  | nil => intro x hx; cases hx
  | cons a t ih =>
    intro x hx
    rcases List.mem_cons.mp hx with rfl | hx
    · exact le_max_left _ _
    · exact le_trans (ih x hx) (le_max_right _ _)

/-- The stored length of a root cluster is its grouping key. -/
theorem root_length {k : ℕ} {g rest : List Line} (hgne : g ≠ [])
    (hlen : ∀ l ∈ g, l.length = k) :
    (mkCluster (g ++ rest) [] (some k)).length = k := by
  rw [mkCluster]
  by_cases hk : k = 0
  · simp only [hk, if_pos rfl]
    cases g with
    | nil => exact absurd rfl hgne
    | cons a t =>
      rw [List.cons_append, List.headD_cons]
      simp [hlen a (List.mem_cons_self _ _), hk]
  · simp [hk]

/-- Member count of the root clusters, per length: the same-length tokenized
lines plus the merged prior lines (merged only when the length occurs). -/
theorem wlSum_by_len (lines : List Str) (prev_clusters : List (ℕ × List Line)) (L : ℕ) :
    wlSum (cluster_lines_by_len lines prev_clusters) L =
      ((((tokenized_input lines).filter (fun l => l.length = L)).length : ℕ) : ℚ) +
      (if ((tokenized_input lines).filter (fun l => l.length = L)).isEmpty then 0
       else ((((lookupA prev_clusters L).getD []).length : ℕ) : ℚ)) := by
  have haux : ∀ (groups : List (ℕ × List Line)), (groups.map Prod.fst).Nodup →
      (∀ e ∈ groups, e.2 ≠ [] ∧ ∀ l ∈ e.2, l.length = e.1) →
      wlSum (groups.map (fun g =>
        mkCluster (g.2 ++ (lookupA prev_clusters g.1).getD []) [] (some g.1))) L =
        match lookupA groups L with
        | none => 0
        | some g => (((g ++ (lookupA prev_clusters L).getD []).length : ℕ) : ℚ) := by
    intro groups
    induction groups with
    | nil => intro _ _; simp [wlSum_nil, lookupA]
    | cons e gs ihg =>
      intro hnd hprop
      obtain ⟨k, g⟩ := e
      obtain ⟨hgne, hglen⟩ := hprop (k, g) (List.mem_cons_self _ _)
      rw [List.map_cons, wlSum_cons, root_length hgne hglen]
      rw [List.map_cons, List.nodup_cons] at hnd
      by_cases hk : k = L
      · subst hk
        rw [if_pos rfl]
        have hnone : lookupA gs k = none := by
          rw [lookupA_eq_none]
          exact hnd.1
        rw [ihg hnd.2 (fun e he => hprop e (List.mem_cons_of_mem _ he)), hnone]
        rw [lookupA, if_pos rfl]
        simp only [add_zero]
        rw [show (mkCluster (g ++ (lookupA prev_clusters k).getD []) [] (some k)).lines =
          g ++ (lookupA prev_clusters k).getD [] from rfl, List.length_append]
      · rw [if_neg hk]
        rw [ihg hnd.2 (fun e he => hprop e (List.mem_cons_of_mem _ he))]
        rw [lookupA, if_neg hk]
        rw [zero_add]
  have hmain := haux (groupPairs (fun l : Line => l.length) (tokenized_input lines))
    (nodup_map_fst_groupPairs _ _)
    (by
      intro e he
      obtain ⟨k, g⟩ := e
      obtain ⟨hfil, hgne⟩ := mem_groupPairs he
      refine ⟨hgne, ?_⟩
      intro l hl
      rw [hfil] at hl
      simpa using List.of_mem_filter hl)
  rw [show cluster_lines_by_len lines prev_clusters =
    (groupPairs (fun l : Line => l.length) (tokenized_input lines)).map (fun g =>
      mkCluster (g.2 ++ (lookupA prev_clusters g.1).getD []) [] (some g.1)) from rfl]
  rw [hmain, lookupA_groupPairs]
  by_cases hempty : ((tokenized_input lines).filter (fun l => l.length = L)).isEmpty
  · rw [if_pos hempty, if_pos hempty]
    have h0 : ((tokenized_input lines).filter (fun l => l.length = L)).length = 0 := by
      rw [List.isEmpty_iff] at hempty
      rw [hempty]
      rfl
    rw [h0]
    simp
  · rw [if_neg hempty, if_neg hempty]
    show ((((List.filter (fun l => decide (l.length = L)) (tokenized_input lines)) ++
      (lookupA prev_clusters L).getD []).length : ℕ) : ℚ) = _
    rw [List.length_append]
    push_cast
    ring

/-- Every root cluster of the Line Partitioner is well formed (prior lines
assumed well formed, as the spec's data model requires). -/
theorem roots_wf {lines : List Str} {prev_clusters : List (ℕ × List Line)}
    (hprev : WFprev prev_clusters) :
    ∀ c ∈ cluster_lines_by_len lines prev_clusters,
      WFc c ∧ ∃ k g, (k, g) ∈ groupPairs (fun l : Line => l.length) (tokenized_input lines) ∧
        c = mkCluster (g ++ (lookupA prev_clusters k).getD []) [] (some k) ∧ c.length = k := by
  intro c hc
  rw [show cluster_lines_by_len lines prev_clusters =
    (groupPairs (fun l : Line => l.length) (tokenized_input lines)).map (fun g =>
      mkCluster (g.2 ++ (lookupA prev_clusters g.1).getD []) [] (some g.1)) from rfl] at hc
  obtain ⟨⟨k, g⟩, hg, rfl⟩ := List.mem_map.mp hc
  obtain ⟨hfil, hgne⟩ := mem_groupPairs hg
  have hglen : ∀ l ∈ g, l.length = k := by
    intro l hl
    rw [hfil] at hl
    simpa using List.of_mem_filter hl
  have hgood : ∀ l ∈ g, ∀ t ∈ l, GoodTok t := by
    intro l hl
    rw [hfil] at hl
    have hmem := List.mem_of_mem_filter hl
    rw [tokenized_input] at hmem
    obtain ⟨s, _, rfl⟩ := List.mem_map.mp hmem
    exact splitWS_good s
  have hprevpart : ∀ l ∈ (lookupA prev_clusters k).getD [],
      l.length = k ∧ ∀ t ∈ l, GoodTok t := by
    cases hlk : lookupA prev_clusters k with
    | none => intro l hl; simp [hlk] at hl
    | some ls =>
      intro l hl
      simp only [Option.getD_some] at hl
      exact hprev (k, ls) (mem_of_lookupA hlk) l hl
  have hlenk : (mkCluster (g ++ (lookupA prev_clusters k).getD []) [] (some k)).length = k :=
    root_length hgne hglen
  refine ⟨⟨?_, ?_, ?_⟩, k, g, hg, rfl, hlenk⟩
  · show g ++ (lookupA prev_clusters k).getD [] ≠ []
    intro hnil
    exact hgne (List.append_eq_nil.mp hnil).1
  · intro l hl
    rw [hlenk]
    rcases List.mem_append.mp hl with hl | hl
    · exact ⟨hglen l hl, hgood l hl⟩
    · exact hprevpart l hl
  · intro p hp
    cases hp

/-- The root clusters are pairwise separated (distinct lengths). -/
theorem roots_pairwise {lines : List Str} {prev_clusters : List (ℕ × List Line)}
    (hprev : WFprev prev_clusters) :
    (cluster_lines_by_len lines prev_clusters).Pairwise SepCC := by
  rw [show cluster_lines_by_len lines prev_clusters =
    (groupPairs (fun l : Line => l.length) (tokenized_input lines)).map (fun g =>
      mkCluster (g.2 ++ (lookupA prev_clusters g.1).getD []) [] (some g.1)) from rfl]
  rw [List.pairwise_map]
  have hnd : (groupPairs (fun l : Line => l.length) (tokenized_input lines)).Pairwise
      (fun g₁ g₂ => g₁.1 ≠ g₂.1) :=
    List.pairwise_map.mp (nodup_map_fst_groupPairs _ _)
  refine List.Pairwise.imp_of_mem ?_ hnd
  intro g₁ g₂ hg₁ hg₂ hne
  obtain ⟨k₁, gl₁⟩ := g₁
  obtain ⟨k₂, gl₂⟩ := g₂
  intro hlen
  exfalso
  obtain ⟨hfil₁, hgne₁⟩ := mem_groupPairs hg₁
  obtain ⟨hfil₂, hgne₂⟩ := mem_groupPairs hg₂
  have hglen₁ : ∀ l ∈ gl₁, l.length = k₁ := by
    intro l hl; rw [hfil₁] at hl; simpa using List.of_mem_filter hl
  have hglen₂ : ∀ l ∈ gl₂, l.length = k₂ := by
    intro l hl; rw [hfil₂] at hl; simpa using List.of_mem_filter hl
  have h₁ := @root_length k₁ gl₁ ((lookupA prev_clusters k₁).getD []) hgne₁ hglen₁
  have h₂ := @root_length k₂ gl₂ ((lookupA prev_clusters k₂).getD []) hgne₂ hglen₂
  apply hne
  rw [← h₁, ← h₂]
  exact hlen

/-- Root clusters have depth bounded by the chosen fuel. -/
theorem roots_depth {lines : List Str} {prev_clusters : List (ℕ × List Line)}
    (hprev : WFprev prev_clusters) :
    ∀ c ∈ cluster_lines_by_len lines prev_clusters,
      c.depth < ((cluster_lines_by_len lines prev_clusters).map
        (fun c => c.length)).foldr max 0 + 2 := by
  intro c hc
  obtain ⟨hwf, k, g, hg, hck, hlenk⟩ := roots_wf hprev c hc
  have hidx : c.indexes = [] := by rw [hck]; rfl
  have hdep : c.depth = c.length := by
    rw [Cluster.depth, hidx]
    rw [List.filter_eq_self.mpr (by intro x _; simp)]
    exact List.length_range _
  rw [hdep]
  have hmem : c.length ∈ (cluster_lines_by_len lines prev_clusters).map
      (fun c => c.length) := List.mem_map.mpr ⟨c, hc, rfl⟩
  have := le_foldr_max _ _ hmem
  omega

/-- The catalog of `cluster_lines`: duplicate-free keys, well-formed entries,
and per-length totals equal to the root member counts. -/
theorem cluster_lines_master (lines : List Str) (prev_clusters : List (ℕ × List Line))
    (threshold : ℚ) (hprev : WFprev prev_clusters) :
    ((cluster_lines lines prev_clusters threshold).map (fun ed => ed.1)).Nodup ∧
    (∀ ed ∈ cluster_lines lines prev_clusters threshold,
      (splitWS ed.1).length = ed.2.line_len ∧ 1 ≤ ed.2.total_lines) ∧
    ∀ L, catSum (cluster_lines lines prev_clusters threshold) L =
      wlSum (cluster_lines_by_len lines prev_clusters) L := by
  have hInv : InvState (cluster_lines_by_len lines prev_clusters) [] := by
    refine ⟨fun c hc => (roots_wf hprev c hc).1, roots_pairwise hprev, ?_, by simp, ?_⟩
    · intro c _ ed hed
      cases hed
    · intro ed hed
      cases hed
  have hm := runClustering_master threshold
    (((cluster_lines_by_len lines prev_clusters).map (fun c => c.length)).foldr max 0 + 2)
    (cluster_lines_by_len lines prev_clusters) [] hInv (roots_depth hprev)
  obtain ⟨⟨_, _, _, hnd, hentw⟩, hsum⟩ := hm
  refine ⟨hnd, hentw, ?_⟩
  intro L
  have := hsum L
  rw [catSum_nil] at this
  rw [show cluster_lines lines prev_clusters threshold =
    runClustering threshold
      (((cluster_lines_by_len lines prev_clusters).map (fun c => c.length)).foldr max 0 + 2)
      (cluster_lines_by_len lines prev_clusters) [] from rfl]
  rw [this]
  ring

/-- Each child of a split has strictly smaller depth than the parent. -/
theorem child_depth_lt {c : Cluster} {threshold : ℚ} {p : ℕ} (hwfc : WFc c)
    (hr : (find_cluster_position c threshold).1 = some p) :
    ∀ child ∈ create_new_clusters (find_cluster_position c threshold).2 p,
      child.depth < c.depth := by
  obtain ⟨hwf', hlines', hlen', hmono', _⟩ := fcp_cluster_facts threshold hwfc
  obtain ⟨hplen, hpnotc, hpnotc'⟩ := fcp_some_pos hr
  have hp' : p < (find_cluster_position c threshold).2.length := by
    rw [hlen']
    exact hplen
  intro child hchild
  obtain ⟨_, _, hclen, hcidx, _⟩ := child_facts hwf' hp' child hchild
  rw [Cluster.depth, Cluster.depth, hclen, hlen']
  refine filter_length_lt (List.mem_range.mpr hplen) _ _ ?_ ?_ ?_
  · intro x hx
    rw [decide_eq_true_eq] at hx
    rw [decide_eq_true_eq]
    intro hc
    exact hx ((hcidx x).mpr (Or.inl (hmono' x hc)))
  · rw [decide_eq_true_eq]
    exact hpnotc
  · exact decide_eq_false (fun hn => hn ((hcidx p).mpr (Or.inr rfl)))

/-- One round, existentially: the children and finalized clusters produced by
the round, shared between the catalog fold and the terminal-cluster fold. -/
theorem roundT_spec (threshold : ℚ) (bound : ℕ) :
    ∀ (cands : List Cluster),
      (∀ c ∈ cands, WFc c) →
      (∀ c ∈ cands, c.depth ≤ bound) →
      ∃ (ch fins : List Cluster),
        (∀ (nx tacc : List Cluster),
          cands.foldl (processOneT threshold) (nx, tacc) = (nx ++ ch, tacc ++ fins)) ∧
        (∀ (nx : List Cluster) (final : Catalog),
          cands.foldl (processOne threshold) (nx, final) = (nx ++ ch, catFoldFinal final fins)) ∧
        (∀ c ∈ ch, WFc c) ∧ (∀ c ∈ ch, c.depth < bound) ∧
        ((ch.flatMap Cluster.lines ++ fins.flatMap Cluster.lines).Perm
          (cands.flatMap Cluster.lines)) := by
  intro cands
  induction cands with
  | nil =>
    intro _ _
    refine ⟨[], [], ?_, ?_, ?_, ?_, ?_⟩
    · intro nx tacc; simp
    · intro nx final; simp [catFoldFinal]
    · intro c hc; cases hc
    · intro c hc; cases hc
    · simp
  | cons c cands ih =>
    intro hwf hdep
    have hwfc : WFc c := hwf c (List.mem_cons_self _ _)
    obtain ⟨ch', fins', hT', hO', hW', hD', hP'⟩ :=
      ih (fun x hx => hwf x (List.mem_cons_of_mem _ hx))
        (fun x hx => hdep x (List.mem_cons_of_mem _ hx))
    obtain ⟨hwf', hlines', hlen', hmono', _⟩ := fcp_cluster_facts threshold hwfc
    rcases hr : (find_cluster_position c threshold).1 with _ | p
    · -- terminal
      refine ⟨ch', (find_cluster_position c threshold).2 :: fins', ?_, ?_, hW', hD', ?_⟩
      · intro nx tacc
        rw [List.foldl_cons]
        have hstep : processOneT threshold (nx, tacc) c =
            (nx, tacc ++ [(find_cluster_position c threshold).2]) := by
          simp only [processOneT, hr]
        rw [hstep, hT']
        rw [List.append_assoc]
        rfl
      · intro nx final
        rw [List.foldl_cons]
        have hstep : processOne threshold (nx, final) c =
            (nx, insertA final (create_final_cluster (find_cluster_position c threshold).2).1
              (create_final_cluster (find_cluster_position c threshold).2).2) := by
          simp only [processOne, hr]
        rw [hstep, hO']
        rfl
      · rw [List.flatMap_cons, List.flatMap_cons, hlines']
        refine List.Perm.trans ?_ (List.Perm.append_left c.lines hP')
        rw [← List.append_assoc, ← List.append_assoc]
        exact List.Perm.append_right _ List.perm_append_comm
    · -- split
      have hplen := (fcp_some_pos hr).1
      have hp' : p < (find_cluster_position c threshold).2.length := by
        rw [hlen']
        exact hplen
      refine ⟨create_new_clusters (find_cluster_position c threshold).2 p ++ ch', fins',
        ?_, ?_, ?_, ?_, ?_⟩
      · intro nx tacc
        rw [List.foldl_cons]
        have hstep : processOneT threshold (nx, tacc) c =
            (nx ++ create_new_clusters (find_cluster_position c threshold).2 p, tacc) := by
          simp only [processOneT, hr]
        rw [hstep, hT', List.append_assoc]
      · intro nx final
        rw [List.foldl_cons]
        have hstep : processOne threshold (nx, final) c =
            (nx ++ create_new_clusters (find_cluster_position c threshold).2 p, final) := by
          simp only [processOne, hr]
        rw [hstep, hO', List.append_assoc]
      · intro x hx
        rcases List.mem_append.mp hx with hx | hx
        · exact child_wf hwf' hp' x hx
        · exact hW' x hx
      · intro x hx
        rcases List.mem_append.mp hx with hx | hx
        · exact lt_of_lt_of_le (child_depth_lt hwfc hr x hx) (hdep c (List.mem_cons_self _ _))
        · exact hD' x hx
      · rw [List.flatMap_append, List.flatMap_cons]
        have hchperm : ((create_new_clusters (find_cluster_position c threshold).2 p).flatMap
            Cluster.lines).Perm c.lines := by
          have heq : (create_new_clusters (find_cluster_position c threshold).2 p).flatMap
              Cluster.lines =
              (groupPairs (fun l : Line => l.getD p [])
                (find_cluster_position c threshold).2.lines).flatMap Prod.snd := by
            rw [create_new_clusters, List.flatMap_map]
            rfl
          rw [heq, hlines']
          exact flatMap_groupPairs_perm _ _
        rw [List.append_assoc]
        exact List.Perm.append hchperm hP'

/-- Finalizing terminal clusters in two stages is the same as in one. -/
theorem catFoldFinal_append (final : Catalog) (A B : List Cluster) :
    catFoldFinal final (A ++ B) = catFoldFinal (catFoldFinal final A) B := by
  rw [catFoldFinal, catFoldFinal, catFoldFinal, List.foldl_append]

/-- The clustering loop is the finalization fold of its terminal clusters,
and the terminal clusters carry exactly the input members. -/
theorem runTerminal_spec (threshold : ℚ) :
    ∀ (fuel : ℕ) (W : List Cluster),
      (∀ c ∈ W, WFc c) → (∀ c ∈ W, c.depth < fuel) →
      (∀ final, runClustering threshold fuel W final =
        catFoldFinal final (runTerminal threshold fuel W)) ∧
      ((runTerminal threshold fuel W).flatMap Cluster.lines).Perm
        (W.flatMap Cluster.lines) := by
  intro fuel
  induction fuel with
  | zero =>
    intro W hwf hd
    cases W with
    | nil =>
      refine ⟨fun final => ?_, by simp [runTerminal]⟩
      rw [runClustering, runTerminal]
      rfl
    | cons c cs => exact absurd (hd c (List.mem_cons_self _ _)) (Nat.not_lt_zero _)
  | succ fuel ih =>
    intro W hwf hd
    cases W with
    | nil =>
      refine ⟨fun final => ?_, by simp [runTerminal]⟩
      rw [runClustering, runTerminal]
      rfl
    | cons c cs =>
      obtain ⟨ch, fins, hT, hO, hWch, hDch, hPerm⟩ :=
        roundT_spec threshold fuel (c :: cs) hwf
          (fun x hx => Nat.lt_succ_iff.mp (hd x hx))
      obtain ⟨ihO, ihP⟩ := ih ch hWch hDch
      constructor
      · intro final
        simp only [runClustering, runTerminal, runRound, hO, hT, List.nil_append]
        rw [ihO (catFoldFinal final fins)]
        rw [← catFoldFinal_append]
      · simp only [runTerminal, hT, List.nil_append]
        rw [List.flatMap_append]
        refine List.Perm.trans ?_ hPerm
        exact List.Perm.trans (List.Perm.append_left _ ihP) List.perm_append_comm

/-- Pointwise appends inside a flat map can be separated, up to permutation. -/
theorem flatMap_append_perm {α β : Type} (f g : α → List β) :
    ∀ l : List α, (l.flatMap (fun x => f x ++ g x)).Perm (l.flatMap f ++ l.flatMap g) := by
  intro l
  induction l with
  | nil => simp
  | cons a t ih =>
    simp only [List.flatMap_cons]
    refine List.Perm.trans (List.Perm.append_left _ ih) ?_
    rw [List.append_assoc, List.append_assoc]
    refine List.Perm.append_left (f a) ?_
    rw [← List.append_assoc, ← List.append_assoc]
    exact List.Perm.append_right _ List.perm_append_comm

/-- The members of the root clusters are the tokenized input lines plus the
merged prior lines. -/
theorem roots_members_perm (lines : List Str) (prev_clusters : List (ℕ × List Line)) :
    (((cluster_lines_by_len lines prev_clusters).flatMap Cluster.lines)).Perm
      (tokenized_input lines ++ mergedPrev lines prev_clusters) := by
  have heq : (cluster_lines_by_len lines prev_clusters).flatMap Cluster.lines =
      (groupPairs (fun l : Line => l.length) (tokenized_input lines)).flatMap
        (fun g => g.2 ++ (lookupA prev_clusters g.1).getD []) := by
    rw [show cluster_lines_by_len lines prev_clusters =
      (groupPairs (fun l : Line => l.length) (tokenized_input lines)).map (fun g =>
        mkCluster (g.2 ++ (lookupA prev_clusters g.1).getD []) [] (some g.1)) from rfl]
    rw [List.flatMap_map]
    rfl
  rw [heq, mergedPrev]
  refine List.Perm.trans (flatMap_append_perm _ _ _) ?_
  exact List.Perm.append_right _ (flatMap_groupPairs_perm _ _)

/-- The catalog is the finalization of the terminal clusters, whose members
are exactly the tokenized input lines plus the merged prior lines. -/
theorem cluster_terminals_spec (lines : List Str) (prev_clusters : List (ℕ × List Line))
    (threshold : ℚ) (hprev : WFprev prev_clusters) :
    cluster_lines lines prev_clusters threshold =
      catFoldFinal [] (cluster_terminals lines prev_clusters threshold) ∧
    ((cluster_terminals lines prev_clusters threshold).flatMap Cluster.lines).Perm
      (tokenized_input lines ++ mergedPrev lines prev_clusters) := by
  have hrt := runTerminal_spec threshold
    (((cluster_lines_by_len lines prev_clusters).map (fun c => c.length)).foldr max 0 + 2)
    (cluster_lines_by_len lines prev_clusters)
    (fun c hc => (roots_wf hprev c hc).1) (roots_depth hprev)
  obtain ⟨hO, hP⟩ := hrt
  refine ⟨hO [], ?_⟩
  exact List.Perm.trans hP (roots_members_perm lines prev_clusters)

/-! Characterization of the trie walk and variable extraction. -/

/-- A successful walk returns one token per line token, each either the
literal line token or the variable marker, and nothing else. -/
theorem findWalk_spec :
    ∀ (tokens : List Tok) (tr : TokTree) (path : List Tok),
      findWalk tr tokens = some path →
      path.length = tokens.length ∧
      (∀ i, i < tokens.length →
        path.getD i [] = tokens.getD i [] ∨ path.getD i [] = VAR_TOKEN) ∧
      (∀ u ∈ path, u ∈ tokens ∨ u = VAR_TOKEN) := by
  intro tokens
  induction tokens with
  | nil =>
    intro tr path h
    rw [findWalk] at h
    injection h with h
    subst h
    refine ⟨rfl, ?_, ?_⟩
    · intro i hi; cases hi
    · intro u hu; cases hu
  | cons token rest ih =>
    intro tr path h
    obtain ⟨es⟩ := tr
    rw [findWalk] at h
    cases hl : lookupA es token with
    | some br =>
      rw [hl] at h
      change (findWalk br rest).map (fun p => token :: p) = some path at h
      cases hw : findWalk br rest with
      | none => rw [hw] at h; cases h
      | some path' =>
        rw [hw] at h
        change some (token :: path') = some path at h
        injection h with h
        subst h
        obtain ⟨hlen, hget, hmem⟩ := ih br path' hw
        refine ⟨by simp [hlen], ?_, ?_⟩
        · intro i hi
          cases i with
          | zero => exact Or.inl rfl
          | succ j =>
            rcases hget j (Nat.lt_of_succ_lt_succ hi) with hh | hh
            · exact Or.inl (by simpa using hh)
            · exact Or.inr (by simpa using hh)
        · intro u hu
          rcases List.mem_cons.mp hu with rfl | hu
          · exact Or.inl (List.mem_cons_self _ _)
          · rcases hmem u hu with hh | hh
            · exact Or.inl (List.mem_cons_of_mem _ hh)
            · exact Or.inr hh
    | none =>
      rw [hl] at h
      change (match lookupA es VAR_TOKEN with
        | some br => (findWalk br rest).map (fun p => VAR_TOKEN :: p)
        | none => none) = some path at h
      cases hv : lookupA es VAR_TOKEN with
      | none => rw [hv] at h; cases h
      | some br =>
        rw [hv] at h
        change (findWalk br rest).map (fun p => VAR_TOKEN :: p) = some path at h
        cases hw : findWalk br rest with
        | none => rw [hw] at h; cases h
        | some path' =>
          rw [hw] at h
          change some (VAR_TOKEN :: path') = some path at h
          injection h with h
          subst h
          obtain ⟨hlen, hget, hmem⟩ := ih br path' hw
          refine ⟨by simp [hlen], ?_, ?_⟩
          · intro i hi
            cases i with
            | zero => exact Or.inr rfl
            | succ j =>
              rcases hget j (Nat.lt_of_succ_lt_succ hi) with hh | hh
              · exact Or.inl (by simpa using hh)
              · exact Or.inr (by simpa using hh)
          · intro u hu
            rcases List.mem_cons.mp hu with rfl | hu
            · exact Or.inr rfl
            · rcases hmem u hu with hh | hh
              · exact Or.inl (List.mem_cons_of_mem _ hh)
              · exact Or.inr hh

/-- The extraction worker raises exactly when some variable position reaches
past the end of the line's tokens. -/
theorem extractAux_error_iff :
    ∀ (ets lts : List Tok) (i : ℕ),
      extractAux lts ets i = .error () ↔
        ∃ j, j < ets.length ∧ ets.getD j [] = VAR_TOKEN ∧ lts.length ≤ i + j := by
  intro ets
  induction ets with
  | nil =>
    intro lts i
    rw [extractAux]
    constructor
    · intro h; cases h
    · rintro ⟨j, hj, _⟩; cases hj
  | cons t rest ih =>
    intro lts i
    rw [extractAux]
    by_cases ht : t = VAR_TOKEN
    · rw [if_pos ht]
      cases hg : lts.get? i with
      | none =>
        rw [List.get?_eq_none] at hg
        refine ⟨fun _ => ⟨0, by simp, by simpa using ht, by simpa using hg⟩, fun _ => rfl⟩
      | some v =>
        have hi : i < lts.length := (List.get?_eq_some.mp hg).1
        change (extractAux lts rest (i + 1)).map (fun vs => v :: vs) = .error () ↔ _
        constructor
        · intro h
          cases he : extractAux lts rest (i + 1) with
          | error u =>
            cases u
            obtain ⟨j, hj, hvar, hlen⟩ := (ih lts (i + 1)).mp he
            exact ⟨j + 1, by simpa using Nat.succ_lt_succ hj, by simpa using hvar, by omega⟩
          | ok vs =>
            rw [he] at h
            change Except.ok (v :: vs) = .error () at h
            cases h
        · rintro ⟨j, hj, hvar, hlen⟩
          cases j with
          | zero => omega
          | succ j' =>
            have herr : extractAux lts rest (i + 1) = .error () :=
              (ih lts (i + 1)).mpr ⟨j', Nat.lt_of_succ_lt_succ hj, by simpa using hvar, by omega⟩
            rw [herr]
            rfl
    · rw [if_neg ht]
      rw [ih lts (i + 1)]
      constructor
      · rintro ⟨j, hj, hvar, hlen⟩
        exact ⟨j + 1, by simpa using Nat.succ_lt_succ hj, by simpa using hvar, by omega⟩
      · rintro ⟨j, hj, hvar, hlen⟩
        cases j with
        | zero => exact absurd (by simpa using hvar) ht
        | succ j' =>
          exact ⟨j', Nat.lt_of_succ_lt_succ hj, by simpa using hvar, by omega⟩

/-- A successful extraction returns one value per variable position. -/
theorem extractAux_ok_length :
    ∀ (ets lts : List Tok) (i : ℕ) (vs : List Tok),
      extractAux lts ets i = .ok vs →
      vs.length = (ets.filter (fun t => t = VAR_TOKEN)).length := by
  intro ets
  induction ets with
  | nil =>
    intro lts i vs h
    rw [extractAux] at h
    injection h with h
    subst h
    rfl
  | cons t rest ih =>
    intro lts i vs h
    rw [extractAux] at h
    by_cases ht : t = VAR_TOKEN
    · rw [if_pos ht] at h
      cases hg : lts.get? i with
      | none => rw [hg] at h; cases h
      | some v =>
        rw [hg] at h
        change (extractAux lts rest (i + 1)).map (fun vs => v :: vs) = .ok vs at h
        cases he : extractAux lts rest (i + 1) with
        | error u => rw [he] at h; cases h
        | ok vs' =>
          rw [he] at h
          change Except.ok (v :: vs') = .ok vs at h
          injection h with h
          subst h
          rw [List.filter_cons, if_pos (by simpa using ht)]
          simp [ih lts (i + 1) vs' he]
    · rw [if_neg ht] at h
      rw [List.filter_cons, if_neg (by simpa using ht)]
      exact ih lts (i + 1) vs h

/-- A successful match returns an identity whose tokens align one-to-one with
the line's tokens, each either the literal token or the variable marker. -/
theorem find_event_spec (tree : List (ℕ × TokTree)) (line ev : Str)
    (h : find_event_in_tree tree line = .ok (some ev)) :
    (splitWS ev).length = (splitWS line).length ∧
    ∀ i, i < (splitWS line).length →
      (splitWS ev).getD i [] = (splitWS line).getD i [] ∨
        (splitWS ev).getD i [] = VAR_TOKEN := by
  rw [find_event_in_tree] at h
  cases hb : lookupA tree (splitWS line).length with
  | some branch =>
    rw [hb] at h
    change Except.ok ((findWalk branch (splitWS line)).map joinSp) =
      Except.ok (some ev) at h
    injection h with h
    cases hw : findWalk branch (splitWS line) with
    | none => rw [hw] at h; cases h
    | some path =>
      rw [hw] at h
      change some (joinSp path) = some ev at h
      injection h with h
      obtain ⟨hlen, hget, hmem⟩ := findWalk_spec (splitWS line) branch path hw
      have hgood : ∀ u ∈ path, GoodTok u := by
        intro u hu
        rcases hmem u hu with hh | hh
        · exact splitWS_good line u hh
        · exact hh ▸ goodTok_VAR
      have hsplit : splitWS ev = path := by
        rw [← h]
        exact splitWS_joinSp path hgood
      rw [hsplit]
      exact ⟨hlen, hget⟩
  | none =>
    rw [hb] at h
    by_cases h0 : (splitWS line).length = 0
    · rw [if_pos h0] at h
      change Except.ok (some (joinSp [])) = Except.ok (some ev) at h
      injection h with h
      injection h with h
      rw [← h, h0]
      exact ⟨rfl, fun i hi => absurd hi (by simp [h0])⟩
    · rw [if_neg h0] at h
      cases h

/-- Extraction succeeds on the identity returned by a successful match. -/
theorem find_event_extract_ok (tree : List (ℕ × TokTree)) (line ev : Str)
    (h : find_event_in_tree tree line = .ok (some ev)) :
    ∃ vs, extract_vars_from_line line ev = .ok vs := by
  obtain ⟨hlen, _⟩ := find_event_spec tree line ev h
  cases hx : extract_vars_from_line line ev with
  | error u =>
    cases u
    rw [extract_vars_from_line] at hx
    obtain ⟨j, hj, _, hge⟩ := (extractAux_error_iff (splitWS ev) (splitWS line) 0).mp hx
    rw [hlen] at hj
    omega
  | ok vs => exact ⟨vs, rfl⟩

/-- The event-index fold only adds length buckets. -/
theorem clusters_to_tree_bucket (clusters : Catalog) (L : ℕ)
    (h : ∃ ed ∈ clusters, ed.2.line_len = L) :
    ∃ br, lookupA (clusters_to_tree clusters) L = some br := by
  have haux : ∀ (cs : List (Str × EventData)) (tree : List (ℕ × TokTree)),
      ((∃ ed ∈ cs, ed.2.line_len = L) ∨ ∃ br, lookupA tree L = some br) →
      ∃ br, lookupA (cs.foldl (fun tree ed =>
        insertA tree ed.2.line_len
          (insertToks ((lookupA tree ed.2.line_len).getD (TokTree.node []))
            (splitWS ed.1))) tree) L = some br := by
    intro cs
    induction cs with
    | nil =>
      intro tree hh
      rcases hh with ⟨ed, hed, _⟩ | hh
      · cases hed
      · exact hh
    | cons ed cs ihc =>
      intro tree hh
      rw [List.foldl_cons]
      by_cases hL : ed.2.line_len = L
      · refine ihc _ (Or.inr ?_)
        rw [← hL]
        exact ⟨_, lookupA_insertA_self _ _ _⟩
      · refine ihc _ ?_
        rcases hh with ⟨ed', hed', hL'⟩ | hh
        · rcases List.mem_cons.mp hed' with rfl | hed'
          · exact absurd hL' hL
          · exact Or.inl ⟨ed', hed', hL'⟩
        · obtain ⟨br, hbr⟩ := hh
          refine Or.inr ⟨br, ?_⟩
          rw [lookupA_insertA_ne _ _ _ (fun hz => hL hz.symm)]
          exact hbr
  exact haux clusters [] (Or.inl h)

/-- A positive per-length total forces an entry of that length. -/
theorem catSum_pos_exists {cat : Catalog} {L : ℕ} (h : 0 < catSum cat L) :
    ∃ ed ∈ cat, ed.2.line_len = L := by
  by_contra hn
  push_neg at hn
  have : cat.filter (fun e => e.2.line_len = L) = [] := by
    rw [List.filter_eq_nil_iff]
    intro ed hed
    simpa using hn ed hed
  rw [catSum, this] at h
  simp at h

/-! The claims. -/

/-- Claim C1: on Scenario A the clustering engine does not produce the
identities the spec expects: neither claimed identity is in the catalog.
The tie between positions 1 and 2 (both of distinct count 2) is broken
toward the lowest position, so the split happens at the address position. -/
theorem C1_counterexample :
    (lookupA (cluster_lines ["ssh 10.0.0.1 connect".data, "ssh 10.0.0.2 connect".data,
        "ssh 10.0.0.1 disconnect".data] [] (mkRat 9 10))
      "ssh *HVRY% connect".data |>.isNone) = true ∧
    (lookupA (cluster_lines ["ssh 10.0.0.1 connect".data, "ssh 10.0.0.2 connect".data,
        "ssh 10.0.0.1 disconnect".data] [] (mkRat 9 10))
      "ssh *HVRY% disconnect".data |>.isNone) = true := by
  decide

/-- Claim C1, amended: Scenario A produces exactly two catalog entries, both
of line length 3, but with the split at the address position: identity
"ssh 10.0.0.1 *HVRY%" with 2 total lines and identity "ssh 10.0.0.2 connect"
with 1 total line. -/
theorem C1_scenarioA :
    (cluster_lines ["ssh 10.0.0.1 connect".data, "ssh 10.0.0.2 connect".data,
        "ssh 10.0.0.1 disconnect".data] [] (mkRat 9 10)).map
      (fun e => (e.1, e.2.total_lines, e.2.line_len)) =
    [("ssh 10.0.0.1 *HVRY%".data, (2 : ℚ), 3), ("ssh 10.0.0.2 connect".data, (1 : ℚ), 3)] := by
  decide

/-- Claim C3: the variable walk of calculate_prob does not return the deepest
matched node's count over total_lines. On a catalog whose event
"m *HVRY% *HVRY%" has total_lines 4 and whose variable tree gives the first
value "a" a count of 2, the probability for ["a"] is 1/4 (the count read from
the matched node is dead-stored to 1 before the loop), not 2/4; and for a
first value "q" absent from the tree the call raises a TypeError
(None subscripting, modelled .error ()) instead of keeping the last matched
count. -/
theorem C3_eval :
    calculate_prob "m *HVRY% *HVRY%".data ["a".data]
      (cluster_lines ["m a x".data, "m a y".data, "m b z".data]
        [(3, [["m".data, VAR_TOKEN, "w".data]])] (mkRat 9 10)) 4 =
      .ok (1, some (mkRat 1 4)) ∧
    (lookupA (cluster_lines ["m a x".data, "m a y".data, "m b z".data]
        [(3, [["m".data, VAR_TOKEN, "w".data]])] (mkRat 9 10))
        "m *HVRY% *HVRY%".data).map
      (fun e => (e.total_lines, (lookupA e.vars.entries "a".data).map (fun p => p.1))) =
      some ((4 : ℚ), some 2) ∧
    mkRat 1 4 ≠ ratDiv 2 4 ∧
    calculate_prob "m *HVRY% *HVRY%".data ["q".data]
      (cluster_lines ["m a x".data, "m a y".data, "m b z".data]
        [(3, [["m".data, VAR_TOKEN, "w".data]])] (mkRat 9 10)) 4 = .error () := by
  refine ⟨by decide, by decide, by decide, by decide⟩

/-- Claim C5: when the length bucket for the line's token count is absent
(and the line is non-empty), find_event_in_tree does not return not-found: it
crashes with an AttributeError (None.get, modelled .error ()). The
inner-step half of the claim is correct: when neither a literal child nor the
variable-marker child exists, the walk returns not-found. -/
theorem C5_eval :
    find_event_in_tree (clusters_to_tree (cluster_lines ["a b".data, "c d".data] []
        (mkRat 9 10))) "x".data = .error () ∧
    (lookupA (clusters_to_tree (cluster_lines ["a b".data, "c d".data] [] (mkRat 9 10)))
      (splitWS "x".data).length |>.isNone) = true ∧
    find_event_in_tree (clusters_to_tree (cluster_lines ["a b".data, "c d".data] []
        (mkRat 9 10))) "c c".data = .ok none := by
  refine ⟨by decide, by decide, by decide⟩

/-- Claim C6: a whitespace-only line is not skipped: " " passes the falsy
test (`if line:` only drops the empty string), is tokenized to zero tokens,
and yields a catalog entry with the empty identity and line length 0. -/
theorem C6_counterexample :
    splitWS " ".data = [] ∧
    (cluster_lines [" ".data] [] (mkRat 9 10)).map
      (fun e => (e.1, e.2.total_lines, e.2.line_len)) = [(([] : Str), (1 : ℚ), 0)] := by
  refine ⟨by decide, by decide⟩

/-- Claim C6, amended: only empty-string lines are skipped; dropping the
empty strings from the input changes nothing. -/
theorem C6_skip_empty (lines : List Str) (prev_clusters : List (ℕ × List Line))
    (threshold : ℚ) :
    cluster_lines lines prev_clusters threshold =
      cluster_lines (lines.filter (· ≠ [])) prev_clusters threshold := by
  have h : cluster_lines_by_len (lines.filter (fun l => l ≠ [])) prev_clusters =
      cluster_lines_by_len lines prev_clusters := by
    rw [cluster_lines_by_len, cluster_lines_by_len, List.filter_filter]
    simp
  simp only [cluster_lines, h]

/-- Claim C2: for every input collection and well-formed prior clusters, the
catalog is exactly the finalization of the terminal groups, every tokenized
input line (and merged prior line) is assigned to exactly one terminal group
(the terminal groups' members are a permutation of the inputs), identities
are never silently overwritten (the catalog keys are distinct), and for each
token length the catalog's total_lines sum equals the number of input lines
of that length plus the number of merged prior lines of that length. -/
theorem C2_coverage (lines : List Str) (prev_clusters : List (ℕ × List Line))
    (threshold : ℚ) (hprev : WFprev prev_clusters) :
    cluster_lines lines prev_clusters threshold =
      catFoldFinal [] (cluster_terminals lines prev_clusters threshold) ∧
    ((cluster_terminals lines prev_clusters threshold).flatMap Cluster.lines).Perm
      (tokenized_input lines ++ mergedPrev lines prev_clusters) ∧
    ((cluster_lines lines prev_clusters threshold).map (fun ed => ed.1)).Nodup ∧
    ∀ L, catSum (cluster_lines lines prev_clusters threshold) L =
      ((((tokenized_input lines).filter (fun l => l.length = L)).length : ℕ) : ℚ) +
      (if ((tokenized_input lines).filter (fun l => l.length = L)).isEmpty then 0
       else ((((lookupA prev_clusters L).getD []).length : ℕ) : ℚ)) := by
  obtain ⟨h1, h2⟩ := cluster_terminals_spec lines prev_clusters threshold hprev
  obtain ⟨hnd, _, hsum⟩ := cluster_lines_master lines prev_clusters threshold hprev
  exact ⟨h1, h2, hnd, fun L => (hsum L).trans (wlSum_by_len lines prev_clusters L)⟩

theorem C2_coverage_witness :
    WFprev ([] : List (ℕ × List Line)) ∧
    cluster_lines ["a b".data] [] (mkRat 9 10) =
      catFoldFinal [] (cluster_terminals ["a b".data] [] (mkRat 9 10)) :=
  ⟨by decide, (C2_coverage ["a b".data] [] (mkRat 9 10) (by decide)).1⟩

/-- Claim C10: every catalog entry's identity splits into exactly line_len
tokens, and its total_lines is at least 1. -/
theorem C10_invariant (lines : List Str) (prev_clusters : List (ℕ × List Line))
    (threshold : ℚ) (hprev : WFprev prev_clusters) :
    ∀ ed ∈ cluster_lines lines prev_clusters threshold,
      (splitWS ed.1).length = ed.2.line_len ∧ 1 ≤ ed.2.total_lines :=
  (cluster_lines_master lines prev_clusters threshold hprev).2.1

theorem C10_invariant_witness :
    WFprev ([] : List (ℕ × List Line)) ∧
    ∀ ed ∈ cluster_lines ["ssh 10.0.0.1 connect".data, "ssh 10.0.0.2 connect".data,
        "ssh 10.0.0.1 disconnect".data] [] (mkRat 9 10),
      (splitWS ed.1).length = ed.2.line_len ∧ 1 ≤ ed.2.total_lines :=
  ⟨by decide, C10_invariant ["ssh 10.0.0.1 connect".data, "ssh 10.0.0.2 connect".data,
      "ssh 10.0.0.1 disconnect".data] [] (mkRat 9 10) (by decide)⟩

/-- Claim C9: a non-none identity returned by find_event_in_tree has exactly
as many tokens as the line, each token either the corresponding line token or
the variable marker, and extracting variables from the line with that
identity succeeds (it never reads past the end of the line's token list). -/
theorem C9_safety (tree : List (ℕ × TokTree)) (line ev : Str)
    (h : find_event_in_tree tree line = .ok (some ev)) :
    (splitWS ev).length = (splitWS line).length ∧
    (∀ i, i < (splitWS line).length →
      (splitWS ev).getD i [] = (splitWS line).getD i [] ∨
        (splitWS ev).getD i [] = VAR_TOKEN) ∧
    ∃ vs, extract_vars_from_line line ev = .ok vs := by
  obtain ⟨h1, h2⟩ := find_event_spec tree line ev h
  exact ⟨h1, h2, find_event_extract_ok tree line ev h⟩

theorem C9_safety_witness :
    find_event_in_tree (clusters_to_tree (cluster_lines ["a b".data] [] (mkRat 9 10)))
        "a b".data = .ok (some "a b".data) ∧
    ((splitWS "a b".data).length = (splitWS "a b".data).length ∧
    (∀ i, i < (splitWS "a b".data).length →
      (splitWS "a b".data).getD i [] = (splitWS "a b".data).getD i [] ∨
        (splitWS "a b".data).getD i [] = VAR_TOKEN) ∧
    ∃ vs, extract_vars_from_line "a b".data "a b".data = .ok vs) :=
  ⟨by decide, C9_safety (clusters_to_tree (cluster_lines ["a b".data] [] (mkRat 9 10)))
      "a b".data "a b".data (by decide)⟩

/-- Claim C7: extract_vars_from_line does not report every token-count
mismatch: with a line of 3 tokens and a template of 2 it returns a variable
list as if the shapes agreed. -/
theorem C7_counterexample :
    extract_vars_from_line "a b c".data "a *HVRY%".data = .ok ["b".data] ∧
    (splitWS "a b c".data).length = 3 ∧ (splitWS "a *HVRY%".data).length = 2 := by
  refine ⟨by decide, by decide, by decide⟩

/-- Claim C7, amended: an error is reported exactly when some variable
position of the template lies beyond the line's token list; on success the
returned variable sequence has one entry per variable-marker token of the
template (extra line tokens are silently ignored, never reported). -/
theorem C7_mismatch (line event : Str) :
    (extract_vars_from_line line event = .error () ↔
      ∃ j, j < (splitWS event).length ∧ (splitWS event).getD j [] = VAR_TOKEN ∧
        (splitWS line).length ≤ j) ∧
    ∀ vs, extract_vars_from_line line event = .ok vs →
      vs.length = ((splitWS event).filter (fun t => t = VAR_TOKEN)).length := by
  constructor
  · rw [extract_vars_from_line, extractAux_error_iff]
    constructor
    · rintro ⟨j, h1, h2, h3⟩
      exact ⟨j, h1, h2, by omega⟩
    · rintro ⟨j, h1, h2, h3⟩
      exact ⟨j, h1, h2, by omega⟩
  · intro vs hvs
    exact extractAux_ok_length (splitWS event) (splitWS line) 0 vs hvs

theorem C7_mismatch_witness :
    (extract_vars_from_line "a".data "a *HVRY%".data = .error () ↔
      ∃ j, j < (splitWS "a *HVRY%".data).length ∧
        (splitWS "a *HVRY%".data).getD j [] = VAR_TOKEN ∧
        (splitWS "a".data).length ≤ j) ∧
    ∀ vs, extract_vars_from_line "a".data "a *HVRY%".data = .ok vs →
      vs.length = ((splitWS "a *HVRY%".data).filter (fun t => t = VAR_TOKEN)).length :=
  C7_mismatch "a".data "a *HVRY%".data

/-- Claim C8: for a multi-member group, a returned split position is in
range, not already fixed, marker-free, not constant (its distinct count is
not 1), of uniqueness ratio strictly below the threshold, and of minimal
distinct count among the qualifying candidate positions; and no position is
returned exactly when no candidate qualifies, so the group is terminal. -/
theorem C8_split_choice (c : Cluster) (threshold : ℚ) (h2 : 2 ≤ c.lines.length) :
    (∀ p, (find_cluster_position c threshold).1 = some p →
      p < c.length ∧ p ∉ c.indexes ∧
      VAR_TOKEN ∉ create_cardinality_map c p ∧
      (create_cardinality_map c p).length ≠ 1 ∧
      ((create_cardinality_map c p).length : ℚ) / c.size < threshold ∧
      ∀ q, q < c.length → q ∉ c.indexes →
        fcpQual (create_cardinality_map c) c.size threshold q →
        (create_cardinality_map c p).length ≤ (create_cardinality_map c q).length) ∧
    ((find_cluster_position c threshold).1 = none ↔
      ∀ q, q < c.length → q ∉ c.indexes →
        ¬ fcpQual (create_cardinality_map c) c.size threshold q) := by
  have hsize : c.size ≠ 1 := by
    rw [Cluster.size]
    intro h
    have : c.lines.length = 1 := by exact_mod_cast h
    omega
  obtain ⟨_, hsome, hnone⟩ := fcp_spec c threshold hsize
  constructor
  · intro p hp
    obtain ⟨h1, h2', hq, hmin⟩ := hsome p hp
    obtain ⟨hv, hc1, hr⟩ := hq
    rw [ratDiv_eq_div] at hr
    exact ⟨h1, h2', hv, hc1, hr, hmin⟩
  constructor
  · exact hnone
  · intro hnoq
    cases hres : (find_cluster_position c threshold).1 with
    | none => rfl
    | some p =>
      obtain ⟨h1, h2', hq, _⟩ := hsome p hres
      exact absurd hq (hnoq p h1 h2')

theorem C8_split_choice_witness :
    2 ≤ (mkCluster [["a".data, "x".data], ["a".data, "y".data],
        ["b".data, "x".data]] [] none).lines.length ∧
    (find_cluster_position (mkCluster [["a".data, "x".data], ["a".data, "y".data],
        ["b".data, "x".data]] [] none) (mkRat 9 10)).1 = some 0 ∧
    VAR_TOKEN ∉ create_cardinality_map (mkCluster [["a".data, "x".data],
        ["a".data, "y".data], ["b".data, "x".data]] [] none) 0 ∧
    (create_cardinality_map (mkCluster [["a".data, "x".data], ["a".data, "y".data],
        ["b".data, "x".data]] [] none) 0).length ≠ 1 ∧
    ((create_cardinality_map (mkCluster [["a".data, "x".data], ["a".data, "y".data],
        ["b".data, "x".data]] [] none) 0).length : ℚ) /
      (mkCluster [["a".data, "x".data], ["a".data, "y".data],
        ["b".data, "x".data]] [] none).size < mkRat 9 10 := by
  refine ⟨by decide, by decide, ?_⟩
  obtain ⟨hs, _⟩ := C8_split_choice (mkCluster [["a".data, "x".data], ["a".data, "y".data],
      ["b".data, "x".data]] [] none) (mkRat 9 10) (by decide)
  obtain ⟨_, _, hv, hc, hr, _⟩ := hs 0 (by decide)
  exact ⟨hv, hc, hr⟩

/-- Claim C4: a non-blank build line can fail to match: the greedy walk
prefers the literal child and never backtracks, and here the single catalog
identity is the verbatim first line "a b", so the build line "c d" of the
same length gets not-found. -/
theorem C4_counterexample :
    ("c d".data ∈ (["a b".data, "c d".data] : List Str) ∧ splitWS "c d".data ≠ []) ∧
    find_event_in_tree (clusters_to_tree (cluster_lines ["a b".data, "c d".data] []
        (mkRat 9 10))) "c d".data = .ok none := by
  refine ⟨⟨by decide, by decide⟩, by decide⟩

/-- Claim C4, amended: for every build line with at least one token, the
matcher does not crash — its length bucket is present, so it returns ok
(possibly not-found) — and whenever it does return an identity, variable
extraction on the line with that identity succeeds. -/
theorem C4_match_extract (lines : List Str) (prev_clusters : List (ℕ × List Line))
    (threshold : ℚ) (line : Str) (hprev : WFprev prev_clusters)
    (hmem : line ∈ lines) (hne : splitWS line ≠ []) :
    ∃ r, find_event_in_tree (clusters_to_tree (cluster_lines lines prev_clusters threshold))
        line = .ok r ∧
      ∀ ev, r = some ev → ∃ vs, extract_vars_from_line line ev = .ok vs := by
  have hline : line ≠ [] := by
    intro h
    rw [h] at hne
    exact hne rfl
  have htok : splitWS line ∈ tokenized_input lines := by
    rw [tokenized_input]
    exact List.mem_map_of_mem _ (List.mem_filter.mpr ⟨hmem, decide_eq_true hline⟩)
  have hfpos : splitWS line ∈
      (tokenized_input lines).filter (fun l => l.length = (splitWS line).length) :=
    List.mem_filter.mpr ⟨htok, decide_eq_true rfl⟩
  have hcnt : 0 < ((tokenized_input lines).filter
      (fun l => l.length = (splitWS line).length)).length :=
    List.length_pos_of_mem hfpos
  have hsum := (cluster_lines_master lines prev_clusters threshold hprev).2.2
    (splitWS line).length
  rw [wlSum_by_len] at hsum
  have hpos : 0 < catSum (cluster_lines lines prev_clusters threshold)
      (splitWS line).length := by
    rw [hsum]
    have ha : (0 : ℚ) < ((((tokenized_input lines).filter
        (fun l => l.length = (splitWS line).length)).length : ℕ) : ℚ) := by
      exact_mod_cast hcnt
    have hb : (0 : ℚ) ≤ (if ((tokenized_input lines).filter
        (fun l => l.length = (splitWS line).length)).isEmpty then (0 : ℚ)
        else ((((lookupA prev_clusters (splitWS line).length).getD []).length : ℕ) : ℚ)) := by
      split
      · exact le_refl 0
      · exact_mod_cast Nat.zero_le _
    linarith
  obtain ⟨ed, hed, hedL⟩ := catSum_pos_exists hpos
  obtain ⟨br, hbr⟩ := clusters_to_tree_bucket (cluster_lines lines prev_clusters threshold)
    (splitWS line).length ⟨ed, hed, hedL⟩
  have hfind : find_event_in_tree (clusters_to_tree
      (cluster_lines lines prev_clusters threshold)) line =
      .ok ((findWalk br (splitWS line)).map joinSp) := by
    rw [find_event_in_tree, hbr]
  refine ⟨(findWalk br (splitWS line)).map joinSp, hfind, ?_⟩
  intro ev hev
  exact find_event_extract_ok _ line ev (by rw [hfind, hev])

theorem C4_match_extract_witness :
    (WFprev ([] : List (ℕ × List Line)) ∧ "a b".data ∈ (["a b".data] : List Str) ∧
      splitWS "a b".data ≠ []) ∧
    ∃ r, find_event_in_tree (clusters_to_tree (cluster_lines ["a b".data] [] (mkRat 9 10)))
        "a b".data = .ok r ∧
      ∀ ev, r = some ev → ∃ vs, extract_vars_from_line "a b".data ev = .ok vs :=
  ⟨⟨by decide, by decide, by decide⟩,
    C4_match_extract ["a b".data] [] (mkRat 9 10) "a b".data (by decide) (by decide)
      (by decide)⟩
